import Mathlib

/-!
Shallow embedding of the overlit DmTool (extent manager and device-mapper
table builder) from `dmtool.go`, together with proofs and refutations of
the specification's claims about it.

Modelling conventions:
* Go `uint64` values are modelled as `Nat`; the one place where 64-bit
  wrap-around is reachable in principle (packing a Target) keeps the
  explicit `% 2 ^ 64`.
* The `willf/bitset` bit set is modelled as a `List Bool`; `Set` grows the
  set when the index is out of range (as the library does), `Clear` and
  `NextClear` never do.
* Kernel interaction (`dm_task_run`, `dm_task_get_info`) is modelled by an
  oracle `Kern`; the Go wrappers discard the run result, and the embedding
  mirrors that faithfully.
* The JSON catalogue file is modelled as its parsed contents (`Catalog`);
  `json.Marshal` is deterministic, so byte equality of two marshalled
  catalogues coincides with equality of the `Catalog` values.
-/

namespace Overlit

/-- Read bit `i` of a bit set; out-of-range bits read as clear, matching
`willf/bitset.Test`. -/
def bitGet (bits : List Bool) (i : Nat) : Bool :=
  bits.getD i false

/-- `willf/bitset.Set`: sets bit `i`, growing the bit set to length `i + 1`
when `i` is out of range. -/
def bsSet (bits : List Bool) (i : Nat) : List Bool :=
  if i < bits.length then bits.set i true
  else (bits ++ List.replicate (i + 1 - bits.length) false).set i true

/-- `willf/bitset.Clear`: clears bit `i`; a no-op when `i` is out of range
(the library never grows on `Clear`). -/
def bsClear (bits : List Bool) (i : Nat) : List Bool :=
  bits.set i false

/-- `willf/bitset.NextClear`: the lowest index `j ≥ i` with `j` below the
bit-set length whose bit is clear; `none` when every such bit is set.
Indices at or beyond the length are never returned. -/
def nextClear (bits : List Bool) (i : Nat) : Option Nat :=
  if h : i < bits.length then
    if bitGet bits i = false then some i else nextClear bits (i + 1)
  else none
termination_by bits.length - i

/-- `getMinUint64` from `utils.go`. -/
def getMinUint64 (a b : Nat) : Nat :=
  if a > b then b else a

/-- `getMaxUint64` from `utils.go`. -/
def getMaxUint64 (a b : Nat) : Nat :=
  if a > b then a else b

/-- `getTarget` from `dmtool.go`: unpack a Target word into
`(start, count) = (target >> 8, target & 0xff)`. -/
def getTarget (target : Nat) : Nat × Nat :=
  (target >>> 8, target &&& 0xff)

/-- Packing of a Target exactly as `dmtool.go` writes it:
`start<<8 | count` on `uint64`, hence the explicit `% 2 ^ 64`. -/
def packTarget (start count : Nat) : Nat :=
  ((start <<< 8) ||| count) % 2 ^ 64

/-- `DmDevice` from `dmtool.go` (JSON-serialised device record). -/
structure DmDevice where
  Targets : List Nat
  Extents : Nat
  FsType : String
  MntPath : String
  Readonly : Bool
  ExtentStart : Nat
  ExtentCount : Nat
deriving Repr, DecidableEq

/-- The fresh device built by `CreateDevice` (`&DmDevice{}`: Go zero value). -/
def emptyDmDevice : DmDevice :=
  ⟨[], 0, "", "", false, 0, 0⟩

/-- The JSON-serialised fields of `DmTool` (the on-disk catalogue):
`devpath`, `extentsize` and the `devices` map. The Go map is modelled as an
association list keyed by device name. -/
structure Catalog where
  DevPath : String
  ExtentSize : Nat
  Devices : List (String × DmDevice)
deriving Repr, DecidableEq

/-- In-memory `DmTool` state: the serialised fields plus the unexported
extent bit set, total extent count and catalogue path. -/
structure DmTool where
  DevPath : String
  ExtentSize : Nat
  Devices : List (String × DmDevice)
  extentbits : List Bool
  extents : Nat
  jsonpath : String
deriving Repr, DecidableEq

/-- `NewDmTool` from `dmtool.go`: zero state with an initialised (empty)
device map. -/
def NewDmTool : DmTool :=
  ⟨"", 0, [], [], 0, ""⟩

/-- Go map lookup `d.Devices[name]` on the association-list model. -/
def findDev (devs : List (String × DmDevice)) (name : String) : Option DmDevice :=
  match devs with
  | [] => none
  | (k, v) :: t => if k = name then some v else findDev t name

/-- Go map store `d.Devices[name] = device` on the association-list model:
overwrite in place if present, append otherwise. -/
def upsertDev (devs : List (String × DmDevice)) (name : String) (dev : DmDevice) :
    List (String × DmDevice) :=
  match devs with
  | [] => [(name, dev)]
  | (k, v) :: t =>
    if k = name then (name, dev) :: t else (k, v) :: upsertDev t name dev

/-- `json.Unmarshal` of a `devices` object into an existing Go map: entries
are stored key by key into the map that is already there. -/
def mergeDevs (base news : List (String × DmDevice)) : List (String × DmDevice) :=
  news.foldl (fun acc p => upsertDev acc p.1 p.2) base

/-- Task kinds from `dmctrl.go` (the `iota` block). Only the ones the
DmTool operations use are needed. -/
def deviceCreate : Nat := 0

/-- `deviceReload` task kind from `dmctrl.go`. -/
def deviceReload : Nat := 1

/-- `deviceRemove` task kind from `dmctrl.go`. -/
def deviceRemove : Nat := 2

/-- `deviceResume` task kind from `dmctrl.go`. -/
def deviceResume : Nat := 5

/-- `deviceInfo` task kind from `dmctrl.go`. -/
def deviceInfo : Nat := 6

/-- One device-mapper table line as added by `dmTaskAddTarget`:
logical sector start, sector length, target type and params string. -/
structure DmTarget where
  sectorStart : Nat
  sectorLen : Nat
  ttype : String
  params : String
deriving Repr, DecidableEq

/-- A device-mapper task as the Go code assembles it before `dmTaskRun`. -/
structure DmTask where
  kind : Nat
  name : String
  targets : List DmTarget
deriving Repr, DecidableEq

/-- Kernel oracle: the backing-device size reported by `getDeviceSize`,
the per-name existence bit reported by `dmTaskGetInfo`, and the success
flag `dm_task_run` would return for a task (1 = success, 0 = failure). -/
structure Kern where
  devsize : Nat
  devExists : String → Bool
  runOk : DmTask → Bool

/-- `dmTaskRun` from `dmctrl.go`: returns the C library's int result. -/
def dmTaskRun (k : Kern) (task : DmTask) : Nat :=
  if k.runOk task then 1 else 0

/-- `attachDevice` from `dmtool.go`: builds a `deviceCreate` task with a
one-sector `zero` placeholder target, runs it, and returns nil. The value
of `dmTaskRun` is discarded by the Go code, so the result is `ok`
regardless of the kernel outcome. -/
def attachDevice (k : Kern) (devname : String) : Except String Unit :=
  let task : DmTask := ⟨deviceCreate, devname, [⟨0, 1, "zero", ""⟩]⟩
  let _ := dmTaskRun k task
  Except.ok ()

/-- `detachDevice` from `dmtool.go`: a `deviceRemove` task; the run result
is discarded and nil is returned. -/
def detachDevice (k : Kern) (devname : String) : Except String Unit :=
  let task : DmTask := ⟨deviceRemove, devname, []⟩
  let _ := dmTaskRun k task
  Except.ok ()

/-- `checkDevice` from `dmtool.go`: a `deviceInfo` task; returns
`info.Exists`. -/
def checkDevice (k : Kern) (devname : String) : Nat :=
  let task : DmTask := ⟨deviceInfo, devname, []⟩
  let _ := dmTaskRun k task
  if k.devExists devname then 1 else 0

/-- `resumeDevice` from `dmtool.go`: a `deviceResume` task; the run result
is discarded and nil is returned. -/
def resumeDevice (k : Kern) (devname : String) : Except String Unit :=
  let task : DmTask := ⟨deviceResume, devname, []⟩
  let _ := dmTaskRun k task
  Except.ok ()

/-- Table built by `reloadDevice`'s loop over `device.Targets`: one linear
target per packed Target, logical offsets accumulating, params
`"<devpath> <start*multis>"`. -/
def buildTable (devpath : String) (multis : Nat) : List Nat → Nat → List DmTarget
  | [], _ => []
  | t :: rest, offset =>
    let sc := getTarget t
    ⟨offset * multis, sc.2 * multis, "linear",
        devpath ++ " " ++ toString (sc.1 * multis)⟩ ::
      buildTable devpath multis rest (offset + sc.2)

/-- Result of one `findExtents` call: the run start, the run length so
far, the number of extents newly allocated in this call, the final cursor,
and the updated bit set (the Go method mutates `d.extentbits` in place). -/
structure FindRes where
  start : Nat
  count : Nat
  ncount : Nat
  offset : Nat
  bits : List Bool
deriving Repr, DecidableEq

/-- The loop body of `findExtents` from `dmtool.go`:

```go
for count < extents {
    index, found := d.extentbits.NextClear(uint(offset + 1))
    if !found { break }
    if count == 0 {
        start = uint64(index - 1)
    } else if uint64(index) != offset+1 { break }
    d.extentbits.Set(index)
    offset = uint64(index); count++; ncount++
}
```
-/
def findExtentsGo (bits : List Bool) (start count extents offset ncount : Nat) :
    FindRes :=
  if count < extents then
    match nextClear bits (offset + 1) with
    | none => ⟨start, count, ncount, offset, bits⟩
    | some index =>
      if count = 0 then
        findExtentsGo (bsSet bits index) (index - 1) (count + 1) extents index
          (ncount + 1)
      else if index ≠ offset + 1 then ⟨start, count, ncount, offset, bits⟩
      else
        findExtentsGo (bsSet bits index) start (count + 1) extents index
          (ncount + 1)
  else ⟨start, count, ncount, offset, bits⟩
termination_by extents - count

/-- `(d *DmTool) findExtents(start, count, extents, offset)`: runs the loop
with `ncount` starting at 0 and returns `(start, count, ncount, offset)`
plus the mutated bit set. -/
def findExtents (bits : List Bool) (start count extents offset : Nat) : FindRes :=
  findExtentsGo bits start count extents offset 0

/-- Unfolding: the loop exits immediately once `count` has reached
`extents`. -/
theorem findExtentsGo_done (bits : List Bool)
    (start count extents offset ncount : Nat) (h : ¬ count < extents) :
    findExtentsGo bits start count extents offset ncount =
      ⟨start, count, ncount, offset, bits⟩ := by
  rw [findExtentsGo]; simp [h]

/-- Unfolding: the loop exits when `NextClear` finds no clear bit. -/
theorem findExtentsGo_full (bits : List Bool)
    (start count extents offset ncount : Nat) (h : count < extents)
    (hn : nextClear bits (offset + 1) = none) :
    findExtentsGo bits start count extents offset ncount =
      ⟨start, count, ncount, offset, bits⟩ := by
  rw [findExtentsGo]; simp [h, hn]

/-- Unfolding: with `count = 0` the loop opens a new run at
`index - 1` without any contiguity check. -/
theorem findExtentsGo_open (bits : List Bool)
    (start extents offset ncount index : Nat) (h : 0 < extents)
    (hs : nextClear bits (offset + 1) = some index) :
    findExtentsGo bits start 0 extents offset ncount =
      findExtentsGo (bsSet bits index) (index - 1) 1 extents index (ncount + 1) := by
  rw [findExtentsGo]; simp [h, hs]

/-- Unfolding: with `count ≠ 0`, a non-adjacent clear bit ends the run. -/
theorem findExtentsGo_break (bits : List Bool)
    (start count extents offset ncount index : Nat) (h : count < extents)
    (hs : nextClear bits (offset + 1) = some index) (hc : count ≠ 0)
    (hne : index ≠ offset + 1) :
    findExtentsGo bits start count extents offset ncount =
      ⟨start, count, ncount, offset, bits⟩ := by
  rw [findExtentsGo]; simp [h, hs, hc, hne]

/-- Unfolding: with `count ≠ 0` and an adjacent clear bit, the run is
extended by one extent. -/
theorem findExtentsGo_cont (bits : List Bool)
    (start count extents offset ncount : Nat) (h : count < extents)
    (hs : nextClear bits (offset + 1) = some (offset + 1)) (hc : count ≠ 0) :
    findExtentsGo bits start count extents offset ncount =
      findExtentsGo (bsSet bits (offset + 1)) start (count + 1) extents
        (offset + 1) (ncount + 1) := by
  rw [findExtentsGo]; simp [h, hs, hc]

/-- In `findExtentsGo`, `count` and `ncount` are incremented together, so
the result satisfies `res.count + ncount₀ = count₀ + res.ncount`. -/
theorem findExtentsGo_count_eq (bits : List Bool)
    (start count extents offset ncount : Nat) :
    (findExtentsGo bits start count extents offset ncount).count + ncount =
      count + (findExtentsGo bits start count extents offset ncount).ncount := by
  induction bits, start, count, extents, offset, ncount
    using findExtentsGo.induct with
  | case1 bits start count extents offset ncount hlt hnone =>
    rw [findExtentsGo_full bits start count extents offset ncount hlt hnone]
  | case2 bits start extents offset ncount index hsome hpos ih =>
    rw [findExtentsGo_open bits start extents offset ncount index hpos hsome]
    simp only [Nat.zero_add] at ih
    omega
  | case3 bits start count extents offset ncount hlt index hsome hc0 hne =>
    rw [findExtentsGo_break bits start count extents offset ncount index hlt
      hsome hc0 hne]
  | case4 bits start count extents offset ncount hlt index hsome hc0 hne ih =>
    have heq : index = offset + 1 := by omega
    subst heq
    rw [findExtentsGo_cont bits start count extents offset ncount hlt hsome hc0]
    omega
  | case5 bits start count extents offset ncount hge =>
    rw [findExtentsGo_done bits start count extents offset ncount hge]

/-- `findExtents` version of the `count`/`ncount` relation. -/
theorem findExtents_count_eq (bits : List Bool) (start count extents offset : Nat) :
    (findExtents bits start count extents offset).count =
      count + (findExtents bits start count extents offset).ncount := by
  have h := findExtentsGo_count_eq bits start count extents offset 0
  simpa [findExtents] using h

/-- `(d *DmTool) setExtents(offset, count)`: sets bits
`offset + 1 … offset + count` (the plus-one convention). -/
def setExtents (bits : List Bool) (offset count : Nat) : List Bool :=
  (List.range count).foldl (fun b i => bsSet b (offset + i + 1)) bits

/-- `(d *DmTool) clearExtents(offset, count)`: clears bits
`offset + 1 … offset + count`. -/
def clearExtents (bits : List Bool) (offset count : Nat) : List Bool :=
  (List.range count).foldl (fun b i => bsClear b (offset + i + 1)) bits

/-- `(d *DmTool) reloadDevice(devname)`: builds a `deviceReload` task whose
table is one linear target per packed Target, runs it, and returns nil —
the `dmTaskRun` result is discarded, so the reload never reports failure. -/
def DmTool.reloadDevice (k : Kern) (d : DmTool) (devname : String) :
    Except String Unit :=
  let multis := d.ExtentSize / 512
  let tbl :=
    match findDev d.Devices devname with
    | some device => buildTable d.DevPath multis device.Targets 0
    | none => []
  let task : DmTask := ⟨deviceReload, devname, tbl⟩
  let _ := dmTaskRun k task
  Except.ok ()

/-- The `for remains > 0` loop of `ResizeDevice` from `dmtool.go`:

```go
for remains > 0 {
    start, count, ncount, offset := d.findExtents(estart, ecount, getMinUint64(remains, 255), eoffset)
    if ncount == 0 {
        if eoffset == 0 { return errors.New("could not resize device") }
        eoffset = 0
        continue
    }
    if ecount > 0 {
        device.Targets[len(device.Targets)-1] = start<<8 | count
    } else {
        device.Targets = append(device.Targets, start<<8|count)
    }
    device.ExtentStart = start
    device.ExtentCount = count
    remains -= count
    eoffset = offset
    estart = 0
    ecount = 0
}
```

`dES`/`dEC` carry `device.ExtentStart`/`device.ExtentCount`; the result is
`none` for the `could not resize device` error, otherwise the final
bit set, target list and cached start/count. -/
def resizeLoop (bits : List Bool) (targets : List Nat) (dES dEC : Nat)
    (remains estart ecount eoffset : Nat) :
    Option (List Bool × List Nat × Nat × Nat) :=
  if h0 : remains = 0 then some (bits, targets, dES, dEC)
  else
    let r := findExtents bits estart ecount (getMinUint64 remains 255) eoffset
    if hn : r.ncount = 0 then
      if ho : eoffset = 0 then none
      else resizeLoop r.bits targets dES dEC remains estart ecount 0
    else
      let tgt := packTarget r.start r.count
      let targets' :=
        if ecount > 0 then targets.set (targets.length - 1) tgt
        else targets ++ [tgt]
      resizeLoop r.bits targets' r.start r.count (remains - r.count) 0 0 r.offset
termination_by 2 * remains + (if eoffset = 0 then 0 else 1)
decreasing_by
  · simp [ho]
  · have hr : r = findExtents bits estart ecount (getMinUint64 remains 255)
        eoffset := rfl
    rw [hr] at hn
    have hc := findExtents_count_eq bits estart ecount (getMinUint64 remains 255)
      eoffset
    split <;> split <;> omega

/-- `(d *DmTool) CreateDevice(name)`: store a fresh zero-valued device in
the catalogue and attach the kernel placeholder. `attachDevice` never
reports failure, so the stored device is always kept. -/
def DmTool.CreateDevice (k : Kern) (d : DmTool) (name : String) :
    Except String DmTool :=
  let d' := { d with Devices := upsertDev d.Devices name emptyDmDevice }
  match attachDevice k name with
  | Except.ok _ => Except.ok d'
  | Except.error e => Except.error e

/-- `(d *DmTool) DeleteDevice(name)`: when the name is catalogued, clear
the bit range of every Target and detach the kernel device. The Go code
never removes `name` from `d.Devices`. -/
def DmTool.DeleteDevice (k : Kern) (d : DmTool) (name : String) :
    Except String DmTool :=
  match findDev d.Devices name with
  | some device =>
    let bits := device.Targets.foldl
      (fun b t =>
        let sc := getTarget t
        clearExtents b sc.1 sc.2) d.extentbits
    let d' := { d with extentbits := bits }
    match detachDevice k name with
    | Except.ok _ => Except.ok d'
    | Except.error e => Except.error e
  | none => Except.error ("has no " ++ name ++ " device")

/-- `(d *DmTool) ResizeDevice(name, size)`: compute the requested extent
count as `getMaxUint64(uint64(math.Ceil(float64(size/d.ExtentSize))), 1)`.
`size / d.ExtentSize` is Go integer division, and `math.Ceil` of the
already-integral quotient is the identity (exact for quotients below
`2^53`), so the computation is `max(size / extentsize, 1)`. Growth runs
`resizeLoop`, then reload + resume (which never fail), then commits
`device.Extents`. A shrink request falls through to the
`has no device` error, as in the Go code. -/
def DmTool.ResizeDevice (k : Kern) (d : DmTool) (name : String) (size : Nat) :
    Except String DmTool :=
  match findDev d.Devices name with
  | some device =>
    let extents := getMaxUint64 (size / d.ExtentSize) 1
    if extents = device.Extents then Except.ok d
    else if extents > device.Extents then
      let remains := device.ExtentCount + (extents - device.Extents)
      match resizeLoop d.extentbits device.Targets device.ExtentStart
          device.ExtentCount remains device.ExtentStart device.ExtentCount
          (device.ExtentStart + device.ExtentCount) with
      | none => Except.error "could not resize device"
      | some (bits, targets, es, ec) =>
        let device' :=
          { device with
              Targets := targets
              ExtentStart := es
              ExtentCount := ec }
        let d' :=
          { d with
              extentbits := bits
              Devices := upsertDev d.Devices name device' }
        match d'.reloadDevice k name with
        | Except.error e => Except.error e
        | Except.ok _ =>
          match resumeDevice k name with
          | Except.error e => Except.error e
          | Except.ok _ =>
            Except.ok
              { d' with
                  Devices := upsertDev d'.Devices name
                    { device' with Extents := extents } }
    else Except.error ("has no " ++ name ++ " device")
  | none => Except.error ("has no " ++ name ++ " device")

/-- `(d *DmTool) HasDevice(name)`: catalogue membership. -/
def DmTool.HasDevice (d : DmTool) (name : String) : Except String Unit :=
  match findDev d.Devices name with
  | some _ => Except.ok ()
  | none => Except.error ("has no " ++ name ++ " device")

/-- `(d *DmTool) SetDeviceFsType(name, fstype)`. -/
def DmTool.SetDeviceFsType (d : DmTool) (name fstype : String) :
    Except String DmTool :=
  match findDev d.Devices name with
  | some device =>
    Except.ok
      { d with Devices := upsertDev d.Devices name { device with FsType := fstype } }
  | none => Except.error ("has no " ++ name ++ " device")

/-- `(d *DmTool) SetDeviceMntPath(name, mntpath)`. -/
def DmTool.SetDeviceMntPath (d : DmTool) (name mntpath : String) :
    Except String DmTool :=
  match findDev d.Devices name with
  | some device =>
    Except.ok
      { d with Devices := upsertDev d.Devices name { device with MntPath := mntpath } }
  | none => Except.error ("has no " ++ name ++ " device")

/-- `(d *DmTool) SetDeviceReadonly(name, readonly)`. -/
def DmTool.SetDeviceReadonly (d : DmTool) (name : String) (ro : Bool) :
    Except String DmTool :=
  match findDev d.Devices name with
  | some device =>
    Except.ok
      { d with Devices := upsertDev d.Devices name { device with Readonly := ro } }
  | none => Except.error ("has no " ++ name ++ " device")

/-- Replay of a single device's Targets during `Setup`: for each Target,
cache its `(start, count)` into `ExtentStart`/`ExtentCount` and set its
bit range. -/
def replayDevice (bits : List Bool) (device : DmDevice) :
    List Bool × DmDevice :=
  device.Targets.foldl
    (fun acc t =>
      let sc := getTarget t
      (setExtents acc.1 sc.1 sc.2,
        { acc.2 with ExtentStart := sc.1, ExtentCount := sc.2 }))
    (bits, device)

/-- The replay loop of `Setup`: every catalogued device has its Targets
replayed into the bitmap; the kernel side (`checkDevice` / `attachDevice` /
`reloadDevice` / `resumeDevice`) never reports failure, so the loop cannot
abort. -/
def replayAll (k : Kern) (d : DmTool) : DmTool :=
  let res := d.Devices.foldl
    (fun acc p =>
      let bd := replayDevice acc.1 p.2
      let _ :=
        if checkDevice k p.1 = 0 then attachDevice k p.1 else Except.ok ()
      (bd.1, acc.2 ++ [(p.1, bd.2)]))
    (d.extentbits, [])
  { d with extentbits := res.1, Devices := res.2 }

/-- `(d *DmTool) Setup(devpath, extentsize, jsonpath)`: fail when the
backing size is 0; size the bitmap at `devsize / extentsize` (the
`math.Ceil` applied to Go integer division is the identity); when the
catalogue file is readable and parses, merge its devices into the map and
replay them only when both `devpath` and `extentsize` match; finally commit
the current `devpath`, `extentsize` and `jsonpath`. -/
def DmTool.Setup (k : Kern) (d : DmTool) (devpath : String) (extentsize : Nat)
    (jsonpath : String) (file : Option Catalog) : Except String DmTool :=
  if k.devsize = 0 then Except.error "extent device is not available"
  else
    let extents := k.devsize / extentsize
    let d1 :=
      { d with
          extents := extents
          extentbits := List.replicate extents false }
    let d2 :=
      match file with
      | none => d1
      | some cat =>
        let du :=
          { d1 with
              DevPath := cat.DevPath
              ExtentSize := cat.ExtentSize
              Devices := mergeDevs d1.Devices cat.Devices }
        if du.DevPath = devpath ∧ du.ExtentSize = extentsize then
          replayAll k du
        else du
    Except.ok
      { d2 with
          DevPath := devpath
          ExtentSize := extentsize
          jsonpath := jsonpath }

/-- The marshalled form of a `DmTool`: exactly the JSON-tagged fields.
`json.Marshal` is deterministic, so two states with equal `catalogOf`
produce byte-identical files. -/
def catalogOf (d : DmTool) : Catalog :=
  ⟨d.DevPath, d.ExtentSize, d.Devices⟩

/-- Contents of one file in the model: newly created and empty, left in an
interrupted state by a failed or short write, or a completely written
catalogue. -/
inductive FileData where
  | blank : FileData
  | torn : FileData
  | whole : Catalog → FileData
deriving Repr, DecidableEq

/-- File-system model: a map from paths to file contents. -/
def FS : Type := String → Option FileData

/-- Point update of the file-system map. -/
def fsUpdate (fs : FS) (p : String) (v : Option FileData) : FS :=
  fun q => if q = p then v else fs q

/-- Outcomes of the fallible steps inside `Flush`, in program order:
temp-file creation, `Write` error, short write, `Sync`, `Close`,
`Rename`. `tmpName` is the fresh name `ioutil.TempFile` picked in the
directory of `jsonpath`. -/
structure FlushEnv where
  tmpName : String
  tmpOk : Bool
  writeOk : Bool
  writeFull : Bool
  syncOk : Bool
  closeOk : Bool
  renameOk : Bool
deriving Repr, DecidableEq

/-- `(d *DmTool) Flush()` over the file-system model: marshal (cannot fail
on this data), create a temp file, write all bytes, fsync, close, and
rename over `jsonpath`. Every failing step returns the Go error and stops;
only the final rename touches `jsonpath`. The result is the new file
system and the returned error (`none` = nil). -/
def DmTool.Flush (env : FlushEnv) (fs : FS) (d : DmTool) : FS × Option String :=
  let jsondata := catalogOf d
  if ¬ env.tmpOk then (fs, some "could not create temp file for json config")
  else
    let fs1 := fsUpdate fs env.tmpName (some FileData.blank)
    if ¬ env.writeOk then
      (fsUpdate fs1 env.tmpName (some FileData.torn),
        some "could not write json config to temp file")
    else if ¬ env.writeFull then
      (fsUpdate fs1 env.tmpName (some FileData.torn), some "short write")
    else
      let fs2 := fsUpdate fs1 env.tmpName (some (FileData.whole jsondata))
      if ¬ env.syncOk then (fs2, some "could not sync temp file")
      else if ¬ env.closeOk then (fs2, some "could not close temp file")
      else if ¬ env.renameOk then (fs2, some "could not commit json config")
      else
        (fsUpdate (fsUpdate fs2 env.tmpName none) d.jsonpath
          (some (FileData.whole jsondata)), none)

/-- `(d *DmTool) Cleanup()`: a `Flush` whose result is discarded. -/
def DmTool.Cleanup (env : FlushEnv) (fs : FS) (d : DmTool) : FS :=
  (d.Flush env fs).1

/-- One catalogue-mutating DmTool operation, for stating invariants over
operation sequences. -/
inductive DmOp where
  | create (name : String)
  | resize (name : String) (size : Nat)
  | del (name : String)
  | setFs (name fstype : String)
  | setMnt (name mntpath : String)
  | setRo (name : String) (ro : Bool)
deriving Repr, DecidableEq

/-- Run one operation. -/
def applyOp (k : Kern) (d : DmTool) : DmOp → Except String DmTool
  | DmOp.create name => d.CreateDevice k name
  | DmOp.resize name size => d.ResizeDevice k name size
  | DmOp.del name => d.DeleteDevice k name
  | DmOp.setFs name fstype => d.SetDeviceFsType name fstype
  | DmOp.setMnt name mntpath => d.SetDeviceMntPath name mntpath
  | DmOp.setRo name ro => d.SetDeviceReadonly name ro

/-- Run a sequence of operations, stopping at the first failure. -/
def runOps (k : Kern) (d : DmTool) : List DmOp → Except String DmTool
  | [] => Except.ok d
  | op :: rest =>
    match applyOp k d op with
    | Except.ok d' => runOps k d' rest
    | Except.error e => Except.error e

/-- States reachable from a fresh `Setup` (no readable catalogue file)
through a sequence of successful operations. -/
def Reachable (k : Kern) (d : DmTool) : Prop :=
  ∃ devpath extentsize jsonpath d0 ops,
    NewDmTool.Setup k devpath extentsize jsonpath none = Except.ok d0 ∧
    runOps k d0 ops = Except.ok d

/-- The bit range a packed Target occupies under the plus-one convention:
bits `start + 1 … start + count`. -/
def targetBits (t : Nat) : List Nat :=
  (List.range (getTarget t).2).map (fun i => (getTarget t).1 + i + 1)

/-- All bits referenced by the Targets of every catalogued device. -/
def catalogBits (devs : List (String × DmDevice)) : List Nat :=
  devs.flatMap (fun p => p.2.Targets.flatMap targetBits)

/-- Indices of set bits of a bit set. -/
def setBitIndices (bits : List Bool) : List Nat :=
  (List.range bits.length).filter (fun i => bitGet bits i = true)

/-! ### Concrete traces used by refutations

A backing device of 40960 bytes with 4096-byte extents gives
`total_extents = 10`. `kernOk` is a kernel in which every task succeeds
and every device exists; `kernBad` is one in which every `dm_task_run`
reports failure. -/

/-- Kernel oracle in which every task succeeds. -/
def kernOk : Kern := ⟨40960, fun _ => true, fun _ => true⟩

/-- Kernel oracle in which every device-mapper task fails. -/
def kernBad : Kern := ⟨40960, fun _ => true, fun _ => false⟩

/-- The state after a fresh `Setup("/dev/backing", 4096, "/var/cat.json")`
with no catalogue file: 10 extents, all clear. -/
def trA0 : DmTool :=
  ⟨"/dev/backing", 4096, [],
    [false, false, false, false, false, false, false, false, false, false],
    10, "/var/cat.json"⟩

/-- After `CreateDevice("A")`. -/
def trA1 : DmTool :=
  { trA0 with Devices := [("A", emptyDmDevice)] }

/-- After `ResizeDevice("A", 4096)`: one Target `(0,1)` (packed 1),
bit 1 set. -/
def trA2 : DmTool :=
  { trA0 with
      Devices := [("A", ⟨[1], 1, "", "", false, 0, 1⟩)]
      extentbits :=
        [false, true, false, false, false, false, false, false, false, false] }

/-- After `DeleteDevice("A")`: bit 1 cleared, but "A" still catalogued
with its Target. -/
def trA3 : DmTool :=
  { trA2 with
      extentbits :=
        [false, false, false, false, false, false, false, false, false, false] }

theorem setup_trA0 :
    NewDmTool.Setup kernOk "/dev/backing" 4096 "/var/cat.json" none =
      Except.ok trA0 := by
  simp [DmTool.Setup, NewDmTool, kernOk, trA0, List.replicate]

theorem step_trA1 : applyOp kernOk trA0 (DmOp.create "A") = Except.ok trA1 := by
  simp [applyOp, DmTool.CreateDevice, attachDevice, dmTaskRun, upsertDev,
    trA0, trA1, kernOk]

theorem step_trA2 : applyOp kernOk trA1 (DmOp.resize "A" 4096) =
    Except.ok trA2 := by
  simp [applyOp, DmTool.ResizeDevice, findDev, trA1, trA2, trA0, emptyDmDevice,
    getMaxUint64, getMinUint64, resizeLoop, findExtents, findExtentsGo,
    nextClear, bitGet, bsSet, packTarget, upsertDev, DmTool.reloadDevice,
    resumeDevice, dmTaskRun, buildTable, getTarget, kernOk]

theorem step_trA3 : applyOp kernOk trA2 (DmOp.del "A") = Except.ok trA3 := by
  simp [applyOp, DmTool.DeleteDevice, findDev, trA2, trA3, trA0, getTarget,
    clearExtents, bsClear, detachDevice, dmTaskRun, kernOk, List.range,
    List.range.loop]

/-- The full `Create("A"); Resize("A", 4096); Delete("A")` run succeeds and
ends in `trA3`. -/
theorem run_trA :
    runOps kernOk trA0 [DmOp.create "A", DmOp.resize "A" 4096, DmOp.del "A"] =
      Except.ok trA3 := by
  simp [runOps, step_trA1, step_trA2, step_trA3]

/-- After `CreateDevice("X")` from `trA0`. -/
def trB1 : DmTool :=
  { trA0 with Devices := [("X", emptyDmDevice)] }

/-- After `ResizeDevice("X", 28672)` (7 extents): Target `(0,7)`,
bits 1–7 set. -/
def trB2 : DmTool :=
  { trA0 with
      Devices := [("X", ⟨[7], 7, "", "", false, 0, 7⟩)]
      extentbits :=
        [false, true, true, true, true, true, true, true, false, false] }

/-- After `CreateDevice("B")`. -/
def trB3 : DmTool :=
  { trB2 with
      Devices := [("X", ⟨[7], 7, "", "", false, 0, 7⟩), ("B", emptyDmDevice)] }

/-- After `ResizeDevice("B", 8192)` (2 extents): B gets Target `(7,2)`
(packed 1794), bits 8 and 9 set. -/
def trB4 : DmTool :=
  { trB2 with
      Devices :=
        [("X", ⟨[7], 7, "", "", false, 0, 7⟩),
          ("B", ⟨[1794], 2, "", "", false, 7, 2⟩)]
      extentbits :=
        [false, true, true, true, true, true, true, true, true, true] }

/-- After `DeleteDevice("X")`: bits 1–7 cleared. -/
def trB5 : DmTool :=
  { trB4 with
      extentbits :=
        [false, false, false, false, false, false, false, false, true, true] }

/-- After `ResizeDevice("B", 12288)` (3 extents): the allocator finds no
clear bit after the cursor 9, wraps to 0, and *extends the existing last
Target non-contiguously*: B's Target becomes `(7,3)` (packed 1795) while
the newly set bit is bit 1. -/
def trB6 : DmTool :=
  { trB4 with
      Devices :=
        [("X", ⟨[7], 7, "", "", false, 0, 7⟩),
          ("B", ⟨[1795], 3, "", "", false, 7, 3⟩)]
      extentbits :=
        [false, true, false, false, false, false, false, false, true, true] }

theorem step_trB1 : applyOp kernOk trA0 (DmOp.create "X") = Except.ok trB1 := by
  simp [applyOp, DmTool.CreateDevice, attachDevice, dmTaskRun, upsertDev,
    trA0, trB1, kernOk]

theorem step_trB2 : applyOp kernOk trB1 (DmOp.resize "X" 28672) =
    Except.ok trB2 := by
  simp [applyOp, DmTool.ResizeDevice, findDev, trB1, trB2, trA0, emptyDmDevice,
    getMaxUint64, getMinUint64, resizeLoop, findExtents, findExtentsGo,
    nextClear, bitGet, bsSet, packTarget, upsertDev, DmTool.reloadDevice,
    resumeDevice, dmTaskRun, buildTable, getTarget, kernOk]

theorem step_trB3 : applyOp kernOk trB2 (DmOp.create "B") = Except.ok trB3 := by
  simp [applyOp, DmTool.CreateDevice, attachDevice, dmTaskRun, upsertDev,
    trB2, trB3, trA0, kernOk]

theorem step_trB4 : applyOp kernOk trB3 (DmOp.resize "B" 8192) =
    Except.ok trB4 := by
  simp [applyOp, DmTool.ResizeDevice, findDev, trB3, trB4, trB2, trA0,
    emptyDmDevice, getMaxUint64, getMinUint64, resizeLoop, findExtents,
    findExtentsGo, nextClear, bitGet, bsSet, packTarget, upsertDev,
    DmTool.reloadDevice, resumeDevice, dmTaskRun, buildTable, getTarget, kernOk]

theorem step_trB5 : applyOp kernOk trB4 (DmOp.del "X") = Except.ok trB5 := by
  simp [applyOp, DmTool.DeleteDevice, findDev, trB4, trB5, trB2, trA0,
    getTarget, clearExtents, bsClear, detachDevice, dmTaskRun, kernOk,
    List.range, List.range.loop]

theorem step_trB6 : applyOp kernOk trB5 (DmOp.resize "B" 12288) =
    Except.ok trB6 := by
  simp [applyOp, DmTool.ResizeDevice, findDev, trB5, trB6, trB4, trB2, trA0,
    emptyDmDevice, getMaxUint64, getMinUint64, resizeLoop, findExtents,
    findExtentsGo, nextClear, bitGet, bsSet, packTarget, upsertDev,
    DmTool.reloadDevice, resumeDevice, dmTaskRun, buildTable, getTarget, kernOk]

/-- The six-operation wrap-around run succeeds and ends in `trB6`. -/
theorem run_trB :
    runOps kernOk trA0
      [DmOp.create "X", DmOp.resize "X" 28672, DmOp.create "B",
        DmOp.resize "B" 8192, DmOp.del "X", DmOp.resize "B" 12288] =
      Except.ok trB6 := by
  simp [runOps, step_trB1, step_trB2, step_trB3, step_trB4, step_trB5,
    step_trB6]

/-- Kernel oracle for the rounding trace: 8 extents of 4 MiB. -/
def kern3 : Kern := ⟨33554432, fun _ => true, fun _ => true⟩

/-- Fresh setup with `extent_size = 4194304` over a 33554432-byte device. -/
def trC0 : DmTool :=
  ⟨"/dev/backing", 4194304, [],
    [false, false, false, false, false, false, false, false], 8, "/var/cat.json"⟩

/-- After `CreateDevice("A")`. -/
def trC1 : DmTool :=
  { trC0 with Devices := [("A", emptyDmDevice)] }

/-- After `ResizeDevice("A", 4194305)`: although 4194305 bytes do not fit
in one 4194304-byte extent, the device is sized at one extent. -/
def trC2 : DmTool :=
  { trC0 with
      Devices := [("A", ⟨[1], 1, "", "", false, 0, 1⟩)]
      extentbits := [false, true, false, false, false, false, false, false] }

theorem setup_trC0 :
    NewDmTool.Setup kern3 "/dev/backing" 4194304 "/var/cat.json" none =
      Except.ok trC0 := by
  simp [DmTool.Setup, NewDmTool, kern3, trC0, List.replicate]

theorem step_trC1 : applyOp kern3 trC0 (DmOp.create "A") = Except.ok trC1 := by
  simp [applyOp, DmTool.CreateDevice, attachDevice, dmTaskRun, upsertDev,
    trC0, trC1, kern3]

theorem step_trC2 : applyOp kern3 trC1 (DmOp.resize "A" 4194305) =
    Except.ok trC2 := by
  simp [applyOp, DmTool.ResizeDevice, findDev, trC1, trC2, trC0, emptyDmDevice,
    getMaxUint64, getMinUint64, resizeLoop, findExtents, findExtentsGo,
    nextClear, bitGet, bsSet, packTarget, upsertDev, DmTool.reloadDevice,
    resumeDevice, dmTaskRun, buildTable, getTarget, kern3]

/-- The rounding run succeeds and ends in `trC2`. -/
theorem run_trC :
    runOps kern3 trC0 [DmOp.create "A", DmOp.resize "A" 4194305] =
      Except.ok trC2 := by
  simp [runOps, step_trC1, step_trC2]

/-- A consistent state whose clear bits at indices ≥ 1 form exactly the two
holes `[1,3)` and `[5,8)`: device "A" owns Target `(2,2)`, i.e. bits 3–4. -/
def trD0 : DmTool :=
  ⟨"/dev/backing", 4096, [("A", ⟨[514], 2, "", "", false, 2, 2⟩)],
    [false, false, false, true, true, false, false, false], 8, "/var/cat.json"⟩

/-- `ResizeDevice("A", 12288)` (grow by one extent, which fits in the first
hole) extends the last Target in place instead: bit 5 — inside the second
hole — is allocated. -/
def trD1 : DmTool :=
  { trD0 with
      Devices := [("A", ⟨[515], 3, "", "", false, 2, 3⟩)]
      extentbits := [false, false, false, true, true, true, false, false] }

theorem step_trD1 : trD0.ResizeDevice kernOk "A" 12288 = Except.ok trD1 := by
  simp [DmTool.ResizeDevice, findDev, trD0, trD1, getMaxUint64, getMinUint64,
    resizeLoop, findExtents, findExtentsGo, nextClear, bitGet, bsSet,
    packTarget, upsertDev, DmTool.reloadDevice, resumeDevice, dmTaskRun,
    buildTable, getTarget, kernOk]

/-- A persisted catalogue whose `devpath` differs from the Setup argument. -/
def mismatchCat : Catalog :=
  ⟨"/dev/other", 4096, [("P", ⟨[1], 1, "", "", false, 0, 1⟩)]⟩

/-! ### Claim theorems -/

/-- C1: the claim states that after any successful sequence of
Create/Resize/Delete operations the set bits of the bitmap equal the
disjoint union of the catalogued devices' Target bit-ranges. The code
violates it: after `Create("A"); Resize("A", 4096); Delete("A")` — all
successful — the bitmap is empty while the catalogue still holds device
"A" with Target `(0,1)`, so bit 1 is referenced but clear
(`DeleteDevice` clears the bits but never removes the device from
`d.Devices`). -/
theorem C1_disjointness_fails_after_delete :
    runOps kernOk trA0 [DmOp.create "A", DmOp.resize "A" 4096, DmOp.del "A"] =
      Except.ok trA3 ∧
    setBitIndices trA3.extentbits = [] ∧
    catalogBits trA3.Devices = [1] :=
  ⟨run_trA, by decide, by decide⟩

/-- C2: the claim states that a failed `dmTaskRun` always surfaces as an
error of the surrounding operation. The code discards every `dmTaskRun`
result: with a kernel in which *every* task fails, `attachDevice` still
returns nil and `CreateDevice` / `DeleteDevice` still succeed. -/
theorem C2_kernel_failure_yields_success :
    dmTaskRun kernBad ⟨deviceCreate, "A", [⟨0, 1, "zero", ""⟩]⟩ = 0 ∧
    attachDevice kernBad "A" = Except.ok () ∧
    trA0.CreateDevice kernBad "A" = Except.ok trA1 ∧
    trA2.DeleteDevice kernBad "A" = Except.ok trA3 :=
  ⟨by decide, rfl, rfl, rfl⟩

/-- C3: the claim states `ResizeDevice` sizes the device at
`max(ceil(size / extent_size), 1)`. The Go expression
`math.Ceil(float64(size/d.ExtentSize))` divides *integers* first, so it
floors: resizing to 4194305 bytes with 4194304-byte extents yields 1
extent, while the claimed formula `max(ceil(4194305/4194304), 1) = 2`. -/
theorem C3_resize_rounds_down :
    runOps kern3 trC0 [DmOp.create "A", DmOp.resize "A" 4194305] =
      Except.ok trC2 ∧
    (findDev trC2.Devices "A").map DmDevice.Extents = some 1 ∧
    getMaxUint64 ((4194305 + 4194304 - 1) / 4194304) 1 = 2 :=
  ⟨run_trC, by decide, by decide⟩

/-- C4: the claim states `DeleteDevice(name)` drops `name` from the
catalogue so that `HasDevice(name)` subsequently fails. The code clears
the bits and detaches the kernel device but never deletes the map entry:
after a successful `DeleteDevice("A")`, `HasDevice("A")` still returns
nil and the catalogue still holds the device record. -/
theorem C4_delete_keeps_catalogue_entry :
    runOps kernOk trA0 [DmOp.create "A", DmOp.resize "A" 4096, DmOp.del "A"] =
      Except.ok trA3 ∧
    trA3.HasDevice "A" = Except.ok () ∧
    findDev trA3.Devices "A" = some ⟨[1], 1, "", "", false, 0, 1⟩ :=
  ⟨run_trA, rfl, by decide⟩

/-- C6: the claim states `Flush` followed by `Setup` on a fresh DmTool
reconstructs an identical catalogue and bitmap. After
`Create("A"); Resize("A", 4096); Delete("A")` the bitmap is empty, but the
deleted device is still catalogued; the round-trip replays its Target and
re-sets bit 1, so the reconstructed bitmap (`trA2.extentbits`) differs
from the pre-Flush bitmap (`trA3.extentbits`). -/
theorem C6_roundtrip_changes_bitmap :
    runOps kernOk trA0 [DmOp.create "A", DmOp.resize "A" 4096, DmOp.del "A"] =
      Except.ok trA3 ∧
    (trA3.Flush ⟨"/var/.tmp42", true, true, true, true, true, true⟩
        (fun _ => none)).2 = none ∧
    (trA3.Flush ⟨"/var/.tmp42", true, true, true, true, true, true⟩
        (fun _ => none)).1 "/var/cat.json" =
      some (FileData.whole (catalogOf trA3)) ∧
    NewDmTool.Setup kernOk "/dev/backing" 4096 "/var/cat.json"
        (some (catalogOf trA3)) = Except.ok trA2 ∧
    trA2.extentbits ≠ trA3.extentbits :=
  ⟨run_trA, by decide, by decide, rfl, by decide⟩

/-- C5 counterexample: the claim states that on a `dev_path` mismatch the
persisted device list is discarded and the in-memory catalogue ends up
empty. Setting up against `mismatchCat` (persisted `devpath`
"/dev/other" ≠ "/dev/backing") succeeds, skips the replay (no bit set),
but keeps the persisted device "P" in the catalogue. -/
theorem C5_counterexample_catalogue_kept :
    NewDmTool.Setup kernOk "/dev/backing" 4096 "/var/cat.json"
        (some mismatchCat) =
      Except.ok
        ⟨"/dev/backing", 4096, [("P", ⟨[1], 1, "", "", false, 0, 1⟩)],
          [false, false, false, false, false, false, false, false, false,
            false], 10, "/var/cat.json"⟩ ∧
    mismatchCat.DevPath ≠ "/dev/backing" ∧
    ([("P", (⟨[1], 1, "", "", false, 0, 1⟩ : DmDevice))] ≠
      ([] : List (String × DmDevice))) :=
  ⟨rfl, by decide, by decide⟩

/-- C9 counterexample: the claim states that with exactly two free holes
`[a,b)` and `[c,d)` (here `a,b,c,d = 1,3,5,8` over the allocator-visible
bits 1–7 of `trD0`) a grow request needing at most `b − a` extents lands
entirely inside `[a,b)`. Growing "A" by one extent (≤ 2 = b − a) instead
allocates bit 5 — inside the second hole — because the allocator resumes
from the device's cursor and extends the last Target in place. -/
theorem C9_counterexample_second_hole :
    trD0.extentbits =
      [false, false, false, true, true, false, false, false] ∧
    trD0.ResizeDevice kernOk "A" 12288 = Except.ok trD1 ∧
    bitGet trD1.extentbits 5 = true ∧
    bitGet trD0.extentbits 5 = false ∧
    bitGet trD1.extentbits 1 = false ∧
    bitGet trD1.extentbits 2 = false :=
  ⟨by decide, step_trD1, by decide, by decide, by decide, by decide⟩

/-- C10 counterexample: the claim states every allocated Target satisfies
`start + count ≤ total_extents − 1`. The wrap-around run `run_trB` ends
with device "B" holding the single Target `1795 = (7 << 8) | 3`, i.e.
`start + count = 10 > 9 = total_extents − 1`: the wrapped allocator
extended the Target non-contiguously past the end of the bitmap's
addressable extents. -/
theorem C10_counterexample_target_overflow :
    runOps kernOk trA0
      [DmOp.create "X", DmOp.resize "X" 28672, DmOp.create "B",
        DmOp.resize "B" 8192, DmOp.del "X", DmOp.resize "B" 12288] =
      Except.ok trB6 ∧
    findDev trB6.Devices "B" = some ⟨[1795], 3, "", "", false, 7, 3⟩ ∧
    (getTarget 1795).1 + (getTarget 1795).2 = 10 ∧
    trB6.extents = 10 :=
  ⟨run_trB, by decide, by decide, by decide⟩

/-! ### Arithmetic of Target packing -/

/-- Masking with `0xff` is reduction mod 256. -/
theorem and_255_eq_mod (t : Nat) : t &&& 255 = t % 256 := by
  have h := Nat.and_pow_two_sub_one_eq_mod t 8
  norm_num at h
  exact h

/-- Shifting right by 8 is division by 256. -/
theorem shiftRight_8_eq_div (t : Nat) : t >>> 8 = t / 256 := by
  have h := Nat.shiftRight_eq_div_pow t 8
  norm_num at h
  exact h

/-- With `count ≤ 255` and `start < 2 ^ 56`, the packed word is exactly
`start * 256 + count` (no 64-bit wrap-around). -/
theorem packTarget_eq (s c : Nat) (hc : c ≤ 255) (hs : s < 2 ^ 56) :
    packTarget s c = s * 256 + c := by
  unfold packTarget
  have h1 : (s <<< 8) ||| c = s * 256 + c := by
    rw [Nat.shiftLeft_eq]
    show s * 2 ^ 8 ||| c = s * 2 ^ 8 + c
    rw [Nat.mul_comm, ← Nat.mul_add_lt_is_or]
    omega
  rw [h1, Nat.mod_eq_of_lt]
  have h2 : (2 ^ 64 : Nat) = 256 * 2 ^ 56 := by norm_num
  nlinarith

/-- The low byte of a packed word is `count` whenever `count ≤ 255`,
regardless of `start` (64-bit wrap-around only clips high bits). -/
theorem packTarget_mod256 (s c : Nat) (hc : c ≤ 255) :
    packTarget s c % 256 = c := by
  unfold packTarget
  have h1 : (s <<< 8) ||| c = s * 256 + c := by
    rw [Nat.shiftLeft_eq]
    show s * 2 ^ 8 ||| c = s * 2 ^ 8 + c
    rw [Nat.mul_comm, ← Nat.mul_add_lt_is_or]
    omega
  rw [h1]
  have h2 : (2 ^ 64 : Nat) = 256 * 2 ^ 56 := by norm_num
  omega

/-- `getTarget` recovers the low byte as the count. -/
theorem getTarget_count (t : Nat) : (getTarget t).2 = t % 256 := by
  unfold getTarget
  exact and_255_eq_mod t

/-- `getTarget` recovers `(start, count)` from any pack with
`1 ≤ count ≤ 255` and `start < 2 ^ 56`. -/
theorem getTarget_packTarget (s c : Nat) (hc2 : c ≤ 255) (hs : s < 2 ^ 56) :
    getTarget (packTarget s c) = (s, c) := by
  unfold getTarget
  rw [packTarget_eq s c hc2 hs, and_255_eq_mod, shiftRight_8_eq_div,
    Prod.mk.injEq]
  omega

/-! ### Bit-set lemmas -/

/-- `bsSet` at an in-range index preserves the length. -/
theorem bsSet_length (bits : List Bool) (i : Nat) (h : i < bits.length) :
    (bsSet bits i).length = bits.length := by
  unfold bsSet
  rw [if_pos h]
  exact List.length_set bits i true

/-- `bsSet` does not change other bits (in-range case). -/
theorem bsSet_get_ne (bits : List Bool) (i j : Nat) (h : i < bits.length)
    (hj : j ≠ i) : bitGet (bsSet bits i) j = bitGet bits j := by
  unfold bsSet bitGet
  rw [if_pos h]
  simp [List.getD, List.getElem?_set_ne (Ne.symm hj)]

/-- `bsSet` sets the requested bit (in-range case). -/
theorem bsSet_get_self (bits : List Bool) (i : Nat) (h : i < bits.length) :
    bitGet (bsSet bits i) i = true := by
  unfold bsSet bitGet
  rw [if_pos h]
  simp [List.getD, List.getElem?_set_self, h]

/-- `bsClear` preserves the length. -/
theorem bsClear_length (bits : List Bool) (i : Nat) :
    (bsClear bits i).length = bits.length := by
  unfold bsClear
  exact List.length_set bits i false

/-- `bsClear` does not change other bits. -/
theorem bsClear_get_ne (bits : List Bool) (i j : Nat) (hj : j ≠ i) :
    bitGet (bsClear bits i) j = bitGet bits j := by
  unfold bsClear bitGet
  simp [List.getD, List.getElem?_set_ne (Ne.symm hj)]

/-- A bit that reads clear stays clear under `bsClear`. -/
theorem bsClear_get_false (bits : List Bool) (i j : Nat)
    (h : bitGet bits j = false) : bitGet (bsClear bits i) j = false := by
  by_cases hj : j = i
  · subst hj
    unfold bsClear bitGet
    by_cases hlt : j < bits.length
    · simp [List.getD, List.getElem?_set_self, hlt]
    · simp [List.getD, List.getElem?_set, hlt]
  · rw [bsClear_get_ne bits i j hj]
    exact h

/-- Helper for `nextClear_some`: induction on the remaining scan length. -/
theorem nextClear_some_aux (bits : List Bool) (j : Nat) :
    ∀ n i, bits.length ≤ i + n → nextClear bits i = some j →
      i ≤ j ∧ j < bits.length ∧ bitGet bits j = false := by
  intro n
  induction n with
  | zero =>
    intro i hle h
    rw [nextClear, dif_neg (by omega)] at h
    cases h
  | succ n ihn =>
    intro i hle h
    rw [nextClear] at h
    by_cases hlt : i < bits.length
    · rw [dif_pos hlt] at h
      by_cases hbit : bitGet bits i = false
      · rw [if_pos hbit] at h
        cases h
        exact ⟨Nat.le_refl _, hlt, hbit⟩
      · rw [if_neg hbit] at h
        have hrec := ihn (i + 1) (by omega) h
        exact ⟨by omega, hrec.2⟩
    · rw [dif_neg hlt] at h
      cases h

/-- `nextClear` only returns in-range clear bits at or after the start. -/
theorem nextClear_some (bits : List Bool) (i j : Nat)
    (h : nextClear bits i = some j) :
    i ≤ j ∧ j < bits.length ∧ bitGet bits j = false :=
  nextClear_some_aux bits j bits.length i (by omega) h

/-- Helper for `nextClear_first`. -/
theorem nextClear_first_aux (bits : List Bool) (j : Nat) :
    ∀ n i, bits.length ≤ i + n → nextClear bits i = some j →
      ∀ m, i ≤ m → m < j → bitGet bits m = true := by
  intro n
  induction n with
  | zero =>
    intro i hle h
    rw [nextClear, dif_neg (by omega)] at h
    cases h
  | succ n ihn =>
    intro i hle h m him hmj
    rw [nextClear] at h
    by_cases hlt : i < bits.length
    · rw [dif_pos hlt] at h
      by_cases hbit : bitGet bits i = false
      · rw [if_pos hbit] at h
        cases h
        omega
      · rw [if_neg hbit] at h
        by_cases hmi : m = i
        · subst hmi
          exact Bool.not_eq_false _ |>.mp hbit
        · exact ihn (i + 1) (by omega) h m (by omega) hmj
    · rw [dif_neg hlt] at h
      cases h

/-- `nextClear` returns the *first* clear bit: everything between the scan
start and the result is set. -/
theorem nextClear_first (bits : List Bool) (i j : Nat)
    (h : nextClear bits i = some j) :
    ∀ m, i ≤ m → m < j → bitGet bits m = true :=
  nextClear_first_aux bits j bits.length i (by omega) h

/-- `nextClear` at a clear in-range bit returns it immediately. -/
theorem nextClear_immediate (bits : List Bool) (i : Nat)
    (hlt : i < bits.length) (hbit : bitGet bits i = false) :
    nextClear bits i = some i := by
  rw [nextClear, dif_pos hlt, if_pos hbit]

/-! ### Allocation-loop invariants -/

/-- `findExtentsGo` preserves the bit-set length and never touches bit 0
or any out-of-range position: `NextClear` only yields indices in
`[offset + 1, length)`. -/
theorem findExtentsGo_bits (bits : List Bool)
    (start count extents offset ncount : Nat) :
    (findExtentsGo bits start count extents offset ncount).bits.length =
      bits.length ∧
    ∀ j, j = 0 ∨ bits.length ≤ j →
      bitGet (findExtentsGo bits start count extents offset ncount).bits j =
        bitGet bits j := by
  induction bits, start, count, extents, offset, ncount
    using findExtentsGo.induct with
  | case1 bits start count extents offset ncount hlt hnone =>
    rw [findExtentsGo_full bits start count extents offset ncount hlt hnone]
    exact ⟨rfl, fun j _ => rfl⟩
  | case2 bits start extents offset ncount index hsome hpos ih =>
    rw [findExtentsGo_open bits start extents offset ncount index hpos hsome]
    obtain ⟨hidx1, hidx2, _⟩ := nextClear_some bits (offset + 1) index hsome
    have hlen := bsSet_length bits index hidx2
    refine ⟨by rw [ih.1, hlen], fun j hj => ?_⟩
    have hne : j ≠ index := by omega
    rw [ih.2 j (by omega), bsSet_get_ne bits index j hidx2 hne]
  | case3 bits start count extents offset ncount hlt index hsome hc0 hne =>
    rw [findExtentsGo_break bits start count extents offset ncount index hlt
      hsome hc0 hne]
    exact ⟨rfl, fun j _ => rfl⟩
  | case4 bits start count extents offset ncount hlt index hsome hc0 hne ih =>
    have heq : index = offset + 1 := by omega
    subst heq
    rw [findExtentsGo_cont bits start count extents offset ncount hlt hsome hc0]
    obtain ⟨hidx1, hidx2, _⟩ := nextClear_some bits (offset + 1) (offset + 1)
      hsome
    have hlen := bsSet_length bits (offset + 1) hidx2
    refine ⟨by rw [ih.1, hlen], fun j hj => ?_⟩
    have hne2 : j ≠ offset + 1 := by omega
    rw [ih.2 j (by omega), bsSet_get_ne bits (offset + 1) j hidx2 hne2]
  | case5 bits start count extents offset ncount hge =>
    rw [findExtentsGo_done bits start count extents offset ncount hge]
    exact ⟨rfl, fun j _ => rfl⟩

/-- The run length produced by `findExtentsGo` never exceeds
`max count extents` (the loop only iterates while `count < extents`). -/
theorem findExtentsGo_count_le (bits : List Bool)
    (start count extents offset ncount : Nat) :
    (findExtentsGo bits start count extents offset ncount).count ≤
      max count extents := by
  induction bits, start, count, extents, offset, ncount
    using findExtentsGo.induct with
  | case1 bits start count extents offset ncount hlt hnone =>
    rw [findExtentsGo_full bits start count extents offset ncount hlt hnone]
    exact Nat.le_max_left _ _
  | case2 bits start extents offset ncount index hsome hpos ih =>
    rw [findExtentsGo_open bits start extents offset ncount index hpos hsome]
    refine le_trans ih ?_
    omega
  | case3 bits start count extents offset ncount hlt index hsome hc0 hne =>
    rw [findExtentsGo_break bits start count extents offset ncount index hlt
      hsome hc0 hne]
    exact Nat.le_max_left _ _
  | case4 bits start count extents offset ncount hlt index hsome hc0 hne ih =>
    have heq : index = offset + 1 := by omega
    subst heq
    rw [findExtentsGo_cont bits start count extents offset ncount hlt hsome hc0]
    refine le_trans ih ?_
    omega
  | case5 bits start count extents offset ncount hge =>
    rw [findExtentsGo_done bits start count extents offset ncount hge]
    exact Nat.le_max_left _ _

/-- `findExtents` version of the count bound. -/
theorem findExtents_count_le (bits : List Bool) (start count extents offset : Nat) :
    (findExtents bits start count extents offset).count ≤ max count extents :=
  findExtentsGo_count_le bits start count extents offset 0

/-- `findExtents` version of the bit-set preservation facts. -/
theorem findExtents_bits (bits : List Bool) (start count extents offset : Nat) :
    (findExtents bits start count extents offset).bits.length = bits.length ∧
    ∀ j, j = 0 ∨ bits.length ≤ j →
      bitGet (findExtents bits start count extents offset).bits j =
        bitGet bits j :=
  findExtentsGo_bits bits start count extents offset 0

/-- Unfolding: the resize loop stops at `remains = 0`. -/
theorem resizeLoop_zero (bits : List Bool) (targets : List Nat)
    (dES dEC estart ecount eoffset : Nat) :
    resizeLoop bits targets dES dEC 0 estart ecount eoffset =
      some (bits, targets, dES, dEC) := by
  rw [resizeLoop]
  simp

/-- Unfolding: a pass that allocates nothing with the cursor already at 0
is the `could not resize device` error. -/
theorem resizeLoop_fail (bits : List Bool) (targets : List Nat)
    (dES dEC remains estart ecount : Nat) (h : remains ≠ 0)
    (hn : (findExtents bits estart ecount (getMinUint64 remains 255) 0).ncount
      = 0) :
    resizeLoop bits targets dES dEC remains estart ecount 0 = none := by
  rw [resizeLoop]
  simp [h, hn]

/-- Unfolding: a pass that allocates nothing with a nonzero cursor wraps
the cursor to 0 and retries. -/
theorem resizeLoop_wrap (bits : List Bool) (targets : List Nat)
    (dES dEC remains estart ecount eoffset : Nat) (h : remains ≠ 0)
    (hn : (findExtents bits estart ecount (getMinUint64 remains 255)
      eoffset).ncount = 0) (ho : eoffset ≠ 0) :
    resizeLoop bits targets dES dEC remains estart ecount eoffset =
      resizeLoop
        (findExtents bits estart ecount (getMinUint64 remains 255) eoffset).bits
        targets dES dEC remains estart ecount 0 := by
  rw [resizeLoop]
  simp [h, hn, ho]

/-- Unfolding: a successful pass stores the Target and recurses with the
diminished need. -/
theorem resizeLoop_step (bits : List Bool) (targets : List Nat)
    (dES dEC remains estart ecount eoffset : Nat) (h : remains ≠ 0)
    (hn : (findExtents bits estart ecount (getMinUint64 remains 255)
      eoffset).ncount ≠ 0) :
    resizeLoop bits targets dES dEC remains estart ecount eoffset =
      (let r := findExtents bits estart ecount (getMinUint64 remains 255)
        eoffset
      let tgt := packTarget r.start r.count
      let targets' :=
        if ecount > 0 then targets.set (targets.length - 1) tgt
        else targets ++ [tgt]
      resizeLoop r.bits targets' r.start r.count (remains - r.count) 0 0
        r.offset) := by
  rw [resizeLoop]
  simp [h, hn]

/-- The resize loop preserves the bit-set length and leaves bit 0 and all
out-of-range positions untouched. -/
theorem resizeLoop_bits (bits : List Bool) (targets : List Nat)
    (dES dEC remains estart ecount eoffset : Nat) :
    ∀ res, resizeLoop bits targets dES dEC remains estart ecount eoffset =
        some res →
      res.1.length = bits.length ∧
      ∀ j, j = 0 ∨ bits.length ≤ j → bitGet res.1 j = bitGet bits j := by
  induction bits, targets, dES, dEC, remains, estart, ecount, eoffset
    using resizeLoop.induct with
  | case1 bits targets dES dEC estart ecount eoffset =>
    intro res hres
    rw [resizeLoop_zero] at hres
    cases hres
    exact ⟨rfl, fun j _ => rfl⟩
  | case2 bits targets dES dEC remains estart ecount h0 r hn =>
    intro res hres
    have hn2 : (findExtents bits estart ecount (getMinUint64 remains 255)
      0).ncount = 0 := hn
    rw [resizeLoop_fail bits targets dES dEC remains estart ecount h0 hn2]
      at hres
    cases hres
  | case3 bits targets dES dEC remains estart ecount eoffset h0 r hn ho ih =>
    intro res hres
    have hn2 : (findExtents bits estart ecount (getMinUint64 remains 255)
      eoffset).ncount = 0 := hn
    rw [resizeLoop_wrap bits targets dES dEC remains estart ecount eoffset h0
      hn2 ho] at hres
    have hfb := findExtents_bits bits estart ecount
      (getMinUint64 remains 255) eoffset
    have hrec := ih res hres
    have hr : r = findExtents bits estart ecount (getMinUint64 remains 255)
      eoffset := rfl
    rw [hr] at hrec
    refine ⟨by rw [hrec.1]; exact hfb.1, fun j hj => ?_⟩
    rw [hrec.2 j (by rw [hfb.1]; exact hj), hfb.2 j hj]
  | case4 bits targets dES dEC remains estart ecount eoffset h0 r hn tgt
      targets2 ih =>
    intro res hres
    have hn2 : (findExtents bits estart ecount (getMinUint64 remains 255)
      eoffset).ncount ≠ 0 := hn
    rw [resizeLoop_step bits targets dES dEC remains estart ecount eoffset h0
      hn2] at hres
    have hfb := findExtents_bits bits estart ecount
      (getMinUint64 remains 255) eoffset
    have hrec := ih res hres
    have hr : r = findExtents bits estart ecount (getMinUint64 remains 255)
      eoffset := rfl
    rw [hr] at hrec
    refine ⟨by rw [hrec.1]; exact hfb.1, fun j hj => ?_⟩
    rw [hrec.2 j (by rw [hfb.1]; exact hj), hfb.2 j hj]

/-- Targets whose unpacked count is in `[1, 255]`. -/
def countOkTargets (targets : List Nat) : Prop :=
  ∀ t ∈ targets, 1 ≤ (getTarget t).2 ∧ (getTarget t).2 ≤ 255

/-- Every Target stored by the resize loop has its count in `[1, 255]`,
and the cached `ExtentCount` stays in `[0, 255]`. -/
theorem resizeLoop_targets (bits : List Bool) (targets : List Nat)
    (dES dEC remains estart ecount eoffset : Nat) :
    ∀ res, resizeLoop bits targets dES dEC remains estart ecount eoffset =
        some res →
      countOkTargets targets → ecount ≤ 255 → dEC ≤ 255 →
      countOkTargets res.2.1 ∧ res.2.2.2 ≤ 255 := by
  induction bits, targets, dES, dEC, remains, estart, ecount, eoffset
    using resizeLoop.induct with
  | case1 bits targets dES dEC estart ecount eoffset =>
    intro res hres ht hec hdEC
    rw [resizeLoop_zero] at hres
    cases hres
    exact ⟨ht, hdEC⟩
  | case2 bits targets dES dEC remains estart ecount h0 r hn =>
    intro res hres ht hec hdEC
    have hn2 : (findExtents bits estart ecount (getMinUint64 remains 255)
      0).ncount = 0 := hn
    rw [resizeLoop_fail bits targets dES dEC remains estart ecount h0 hn2]
      at hres
    cases hres
  | case3 bits targets dES dEC remains estart ecount eoffset h0 r hn ho ih =>
    intro res hres ht hec hdEC
    have hn2 : (findExtents bits estart ecount (getMinUint64 remains 255)
      eoffset).ncount = 0 := hn
    rw [resizeLoop_wrap bits targets dES dEC remains estart ecount eoffset h0
      hn2 ho] at hres
    exact ih res hres ht hec hdEC
  | case4 bits targets dES dEC remains estart ecount eoffset h0 r hn tgt
      targets2 ih =>
    intro res hres ht hec hdEC
    have hn2 : (findExtents bits estart ecount (getMinUint64 remains 255)
      eoffset).ncount ≠ 0 := hn
    rw [resizeLoop_step bits targets dES dEC remains estart ecount eoffset h0
      hn2] at hres
    simp only [] at hres
    have hcnt := findExtents_count_eq bits estart ecount
      (getMinUint64 remains 255) eoffset
    have hn3 : (findExtents bits estart ecount (getMinUint64 remains 255)
      eoffset).ncount ≠ 0 := hn2
    have hle := findExtents_count_le bits estart ecount
      (getMinUint64 remains 255) eoffset
    have hminle : getMinUint64 remains 255 ≤ 255 := by
      unfold getMinUint64
      split <;> omega
    have h255 : (findExtents bits estart ecount (getMinUint64 remains 255)
        eoffset).count ≤ 255 := by
      refine le_trans hle ?_
      omega
    have h1 : 1 ≤ (findExtents bits estart ecount (getMinUint64 remains 255)
        eoffset).count := by omega
    have htgt : 1 ≤ (getTarget (packTarget
          (findExtents bits estart ecount (getMinUint64 remains 255)
            eoffset).start
          (findExtents bits estart ecount (getMinUint64 remains 255)
            eoffset).count)).2 ∧
        (getTarget (packTarget
          (findExtents bits estart ecount (getMinUint64 remains 255)
            eoffset).start
          (findExtents bits estart ecount (getMinUint64 remains 255)
            eoffset).count)).2 ≤ 255 := by
      rw [getTarget_count, packTarget_mod256 _ _ h255]
      exact ⟨h1, h255⟩
    have htargets2 : countOkTargets
        (if ecount > 0 then
          targets.set (targets.length - 1)
            (packTarget
              (findExtents bits estart ecount (getMinUint64 remains 255)
                eoffset).start
              (findExtents bits estart ecount (getMinUint64 remains 255)
                eoffset).count)
        else
          targets ++
            [packTarget
              (findExtents bits estart ecount (getMinUint64 remains 255)
                eoffset).start
              (findExtents bits estart ecount (getMinUint64 remains 255)
                eoffset).count]) := by
      intro t htm
      by_cases hecpos : ecount > 0
      · rw [if_pos hecpos] at htm
        rcases List.mem_or_eq_of_mem_set htm with hold | hnew
        · exact ht t hold
        · rw [hnew]
          exact htgt
      · rw [if_neg hecpos] at htm
        rcases List.mem_append.mp htm with hold | hnew
        · exact ht t hold
        · rw [List.mem_singleton.mp hnew]
          exact htgt
    exact ih res hres htargets2 (Nat.zero_le _) h255

/-! ### Catalogue-level invariants -/

/-- A member of an upserted catalogue is an old member or the new pair. -/
theorem mem_upsertDev (devs : List (String × DmDevice)) (name : String)
    (dev : DmDevice) (p : String × DmDevice) (h : p ∈ upsertDev devs name dev) :
    p ∈ devs ∨ p = (name, dev) := by
  induction devs with
  | nil =>
    rw [upsertDev] at h
    right
    exact List.mem_singleton.mp h
  | cons hd tl ih =>
    obtain ⟨kk, vv⟩ := hd
    rw [upsertDev] at h
    by_cases hk : kk = name
    · rw [if_pos hk] at h
      rcases List.mem_cons.mp h with hnew | hold
      · right
        exact hnew
      · left
        exact List.mem_cons_of_mem _ hold
    · rw [if_neg hk] at h
      rcases List.mem_cons.mp h with hhd | htl
      · left
        rw [hhd]
        exact List.mem_cons_self _ _
      · rcases ih htl with hold | hnew
        · left
          exact List.mem_cons_of_mem _ hold
        · right
          exact hnew

/-- A successful catalogue lookup is a member. -/
theorem findDev_mem (devs : List (String × DmDevice)) (name : String)
    (dev : DmDevice) (h : findDev devs name = some dev) : (name, dev) ∈ devs := by
  induction devs with
  | nil =>
    rw [findDev] at h
    cases h
  | cons hd tl ih =>
    obtain ⟨kk, vv⟩ := hd
    rw [findDev] at h
    by_cases hk : kk = name
    · rw [if_pos hk] at h
      cases h
      rw [hk]
      exact List.mem_cons_self _ _
    · rw [if_neg hk] at h
      exact List.mem_cons_of_mem _ (ih h)

/-- Catalogue invariant: every device's Targets have counts in `[1, 255]`
and its cached `ExtentCount` is at most 255. -/
def devicesOk (devs : List (String × DmDevice)) : Prop :=
  ∀ p ∈ devs, countOkTargets p.2.Targets ∧ p.2.ExtentCount ≤ 255

/-- `ResizeDevice` preserves the catalogue invariant. -/
theorem ResizeDevice_devicesOk (k : Kern) (d : DmTool) (name : String)
    (size : Nat) (d' : DmTool) (hok : d.ResizeDevice k name size = Except.ok d')
    (hinv : devicesOk d.Devices) : devicesOk d'.Devices := by
  cases hfd : findDev d.Devices name with
  | none =>
    simp only [DmTool.ResizeDevice, hfd] at hok
    exact Except.noConfusion hok
  | some device =>
    have hdev := hinv (name, device) (findDev_mem d.Devices name device hfd)
    simp only [DmTool.ResizeDevice, hfd] at hok
    by_cases heq : getMaxUint64 (size / d.ExtentSize) 1 = device.Extents
    · rw [if_pos heq] at hok
      cases hok
      exact hinv
    · rw [if_neg heq] at hok
      by_cases hgt : getMaxUint64 (size / d.ExtentSize) 1 > device.Extents
      · rw [if_pos hgt] at hok
        cases hrl : resizeLoop d.extentbits device.Targets device.ExtentStart
            device.ExtentCount
            (device.ExtentCount +
              (getMaxUint64 (size / d.ExtentSize) 1 - device.Extents))
            device.ExtentStart device.ExtentCount
            (device.ExtentStart + device.ExtentCount) with
        | none =>
          rw [hrl] at hok
          exact Except.noConfusion hok
        | some res =>
          obtain ⟨rbits, rtargets, res', rec'⟩ := res
          rw [hrl] at hok
          simp only [DmTool.reloadDevice, resumeDevice, Except.ok.injEq] at hok
          subst hok
          have hout := resizeLoop_targets d.extentbits device.Targets
            device.ExtentStart device.ExtentCount
            (device.ExtentCount +
              (getMaxUint64 (size / d.ExtentSize) 1 - device.Extents))
            device.ExtentStart device.ExtentCount
            (device.ExtentStart + device.ExtentCount)
            (rbits, rtargets, res', rec') hrl hdev.1 hdev.2 hdev.2
          intro p hp
          rcases mem_upsertDev _ _ _ p hp with hp1 | hp2
          · rcases mem_upsertDev _ _ _ p hp1 with hp3 | hp4
            · exact hinv p hp3
            · rw [hp4]
              exact ⟨hout.1, hout.2⟩
          · rw [hp2]
            exact ⟨hout.1, hout.2⟩
      · rw [if_neg hgt] at hok
        cases hok

/-- Every single successful operation preserves the catalogue invariant. -/
theorem applyOp_devicesOk (k : Kern) (d : DmTool) (op : DmOp) (d' : DmTool)
    (hok : applyOp k d op = Except.ok d') (hinv : devicesOk d.Devices) :
    devicesOk d'.Devices := by
  cases op with
  | create name =>
    simp only [applyOp, DmTool.CreateDevice, attachDevice, dmTaskRun] at hok
    cases hok
    intro p hp
    rcases mem_upsertDev _ _ _ p hp with hp1 | hp2
    · exact hinv p hp1
    · rw [hp2]
      refine ⟨?_, by simp [emptyDmDevice]⟩
      intro t ht
      simp [emptyDmDevice] at ht
  | resize name size =>
    exact ResizeDevice_devicesOk k d name size d' hok hinv
  | del name =>
    simp only [applyOp, DmTool.DeleteDevice] at hok
    cases hfd : findDev d.Devices name with
    | none =>
      rw [hfd] at hok
      cases hok
    | some device =>
      rw [hfd] at hok
      simp only [detachDevice, dmTaskRun] at hok
      cases hok
      exact hinv
  | setFs name fstype =>
    simp only [applyOp, DmTool.SetDeviceFsType] at hok
    cases hfd : findDev d.Devices name with
    | none =>
      rw [hfd] at hok
      cases hok
    | some device =>
      have hdev := hinv (name, device) (findDev_mem d.Devices name device hfd)
      rw [hfd] at hok
      cases hok
      intro p hp
      rcases mem_upsertDev _ _ _ p hp with hp1 | hp2
      · exact hinv p hp1
      · rw [hp2]
        exact hdev
  | setMnt name mntpath =>
    simp only [applyOp, DmTool.SetDeviceMntPath] at hok
    cases hfd : findDev d.Devices name with
    | none =>
      rw [hfd] at hok
      cases hok
    | some device =>
      have hdev := hinv (name, device) (findDev_mem d.Devices name device hfd)
      rw [hfd] at hok
      cases hok
      intro p hp
      rcases mem_upsertDev _ _ _ p hp with hp1 | hp2
      · exact hinv p hp1
      · rw [hp2]
        exact hdev
  | setRo name ro =>
    simp only [applyOp, DmTool.SetDeviceReadonly] at hok
    cases hfd : findDev d.Devices name with
    | none =>
      rw [hfd] at hok
      cases hok
    | some device =>
      have hdev := hinv (name, device) (findDev_mem d.Devices name device hfd)
      rw [hfd] at hok
      cases hok
      intro p hp
      rcases mem_upsertDev _ _ _ p hp with hp1 | hp2
      · exact hinv p hp1
      · rw [hp2]
        exact hdev

/-- Generic preservation of a predicate through `List.foldl`. -/
theorem foldl_preserve {α β : Type} (P : α → Prop) (f : α → β → α)
    (hf : ∀ a b, P a → P (f a b)) :
    ∀ (l : List β) (a : α), P a → P (l.foldl f a) := by
  intro l
  induction l with
  | nil =>
    intro a ha
    exact ha
  | cons hd tl ih =>
    intro a ha
    exact ih (f a hd) (hf a hd ha)

/-- Bit-level invariant: the bit set has exactly `total_extents` bits and
bit 0 is clear. -/
def BitsInv (d : DmTool) : Prop :=
  d.extentbits.length = d.extents ∧ bitGet d.extentbits 0 = false

/-- A set bit is always within the list. -/
theorem bitGet_true_lt (bits : List Bool) (j : Nat)
    (h : bitGet bits j = true) : j < bits.length := by
  by_contra hge
  unfold bitGet at h
  rw [List.getD_eq_default] at h
  · cases h
  · omega

/-- `bsClear` (at any index) preserves length and clear bits, so any fold
of clears does. -/
theorem clearFold_preserve (n : Nat) (f : List Bool → Nat → List Bool)
    (hf : ∀ b i, (f b i).length = b.length ∧
      (bitGet b 0 = false → bitGet (f b i) 0 = false)) :
    ∀ (l : List Nat) (b : List Bool), b.length = n → bitGet b 0 = false →
      (l.foldl f b).length = n ∧ bitGet (l.foldl f b) 0 = false := by
  intro l
  induction l with
  | nil =>
    intro b hb h0
    exact ⟨hb, h0⟩
  | cons hd tl ih =>
    intro b hb h0
    have hstep := hf b hd
    exact ih (f b hd) (by rw [hstep.1]; exact hb) (hstep.2 h0)

/-- `clearExtents` preserves the bit-set length. -/
theorem clearExtents_length (bits : List Bool) (offset count : Nat) :
    (clearExtents bits offset count).length = bits.length := by
  unfold clearExtents
  exact foldl_preserve (fun b => b.length = bits.length)
    (fun b i => bsClear b (offset + i + 1))
    (fun a i ha => by
      show (bsClear a (offset + i + 1)).length = bits.length
      rw [bsClear_length]
      exact ha)
    (List.range count) bits rfl

/-- `clearExtents` keeps a clear bit 0 clear. -/
theorem clearExtents_bit0 (bits : List Bool) (offset count : Nat)
    (h0 : bitGet bits 0 = false) :
    bitGet (clearExtents bits offset count) 0 = false := by
  unfold clearExtents
  exact foldl_preserve (fun b => bitGet b 0 = false)
    (fun b i => bsClear b (offset + i + 1))
    (fun a i ha => bsClear_get_false a _ 0 ha)
    (List.range count) bits h0

/-- A fresh `Setup` (no catalogue file) produces exactly the zero state
with an all-clear bitmap of `devsize / extentsize` bits. -/
theorem Setup_none_spec (k : Kern) (p : String) (e : Nat) (j : String)
    (d0 : DmTool) (h : NewDmTool.Setup k p e j none = Except.ok d0) :
    d0 = ⟨p, e, [], List.replicate (k.devsize / e) false, k.devsize / e, j⟩ := by
  unfold DmTool.Setup at h
  by_cases hz : k.devsize = 0
  · rw [if_pos hz] at h
    exact Except.noConfusion h
  · rw [if_neg hz] at h
    simp only [NewDmTool, Except.ok.injEq] at h
    exact h.symm

/-- Induction principle over reachable states. -/
theorem Reachable_inv (k : Kern) (P : DmTool → Prop)
    (hsetup : ∀ p e j d0, NewDmTool.Setup k p e j none = Except.ok d0 → P d0)
    (hstep : ∀ d op d', applyOp k d op = Except.ok d' → P d → P d')
    (d : DmTool) (h : Reachable k d) : P d := by
  obtain ⟨p, e, j, d0, ops, hs, hr⟩ := h
  have h0 := hsetup p e j d0 hs
  clear hs
  induction ops generalizing d0 with
  | nil =>
    rw [runOps] at hr
    cases hr
    exact h0
  | cons op rest ih =>
    cases happ : applyOp k d0 op with
    | ok d1 =>
      simp only [runOps, happ] at hr
      exact ih d1 hr (hstep d0 op d1 happ h0)
    | error e1 =>
      simp only [runOps, happ] at hr
      exact Except.noConfusion hr

/-- `ResizeDevice` preserves the bit-level invariant. -/
theorem ResizeDevice_bitsInv (k : Kern) (d : DmTool) (name : String)
    (size : Nat) (d' : DmTool) (hok : d.ResizeDevice k name size = Except.ok d')
    (hinv : BitsInv d) : BitsInv d' := by
  cases hfd : findDev d.Devices name with
  | none =>
    simp only [DmTool.ResizeDevice, hfd] at hok
    exact Except.noConfusion hok
  | some device =>
    simp only [DmTool.ResizeDevice, hfd] at hok
    by_cases heq : getMaxUint64 (size / d.ExtentSize) 1 = device.Extents
    · rw [if_pos heq] at hok
      cases hok
      exact hinv
    · rw [if_neg heq] at hok
      by_cases hgt : getMaxUint64 (size / d.ExtentSize) 1 > device.Extents
      · rw [if_pos hgt] at hok
        cases hrl : resizeLoop d.extentbits device.Targets device.ExtentStart
            device.ExtentCount
            (device.ExtentCount +
              (getMaxUint64 (size / d.ExtentSize) 1 - device.Extents))
            device.ExtentStart device.ExtentCount
            (device.ExtentStart + device.ExtentCount) with
        | none =>
          rw [hrl] at hok
          exact Except.noConfusion hok
        | some res =>
          obtain ⟨rbits, rtargets, res', rec'⟩ := res
          rw [hrl] at hok
          simp only [DmTool.reloadDevice, resumeDevice, Except.ok.injEq] at hok
          subst hok
          have hb := resizeLoop_bits d.extentbits device.Targets
            device.ExtentStart device.ExtentCount
            (device.ExtentCount +
              (getMaxUint64 (size / d.ExtentSize) 1 - device.Extents))
            device.ExtentStart device.ExtentCount
            (device.ExtentStart + device.ExtentCount)
            (rbits, rtargets, res', rec') hrl
          refine ⟨?_, ?_⟩
          · simpa using hb.1.trans hinv.1
          · have h0 := hb.2 0 (Or.inl rfl)
            simpa [h0] using hinv.2
      · rw [if_neg hgt] at hok
        exact Except.noConfusion hok

/-- Every successful operation preserves the bit-level invariant. -/
theorem applyOp_bitsInv (k : Kern) (d : DmTool) (op : DmOp) (d' : DmTool)
    (hok : applyOp k d op = Except.ok d') (hinv : BitsInv d) : BitsInv d' := by
  cases op with
  | create name =>
    simp only [applyOp, DmTool.CreateDevice, attachDevice, dmTaskRun] at hok
    cases hok
    exact hinv
  | resize name size =>
    exact ResizeDevice_bitsInv k d name size d' hok hinv
  | del name =>
    simp only [applyOp, DmTool.DeleteDevice] at hok
    cases hfd : findDev d.Devices name with
    | none =>
      rw [hfd] at hok
      exact Except.noConfusion hok
    | some device =>
      rw [hfd] at hok
      simp only [detachDevice, dmTaskRun, Except.ok.injEq] at hok
      subst hok
      have hfold := clearFold_preserve d.extentbits.length
        (fun b t => clearExtents b (getTarget t).1 (getTarget t).2)
        (fun b t => ⟨clearExtents_length b (getTarget t).1 (getTarget t).2,
          fun hb => clearExtents_bit0 b (getTarget t).1 (getTarget t).2 hb⟩)
        device.Targets d.extentbits rfl hinv.2
      exact ⟨hfold.1.trans hinv.1, hfold.2⟩
  | setFs name fstype =>
    simp only [applyOp, DmTool.SetDeviceFsType] at hok
    cases hfd : findDev d.Devices name with
    | none =>
      rw [hfd] at hok
      exact Except.noConfusion hok
    | some device =>
      rw [hfd] at hok
      simp only [Except.ok.injEq] at hok
      subst hok
      exact hinv
  | setMnt name mntpath =>
    simp only [applyOp, DmTool.SetDeviceMntPath] at hok
    cases hfd : findDev d.Devices name with
    | none =>
      rw [hfd] at hok
      exact Except.noConfusion hok
    | some device =>
      rw [hfd] at hok
      simp only [Except.ok.injEq] at hok
      subst hok
      exact hinv
  | setRo name ro =>
    simp only [applyOp, DmTool.SetDeviceReadonly] at hok
    cases hfd : findDev d.Devices name with
    | none =>
      rw [hfd] at hok
      exact Except.noConfusion hok
    | some device =>
      rw [hfd] at hok
      simp only [Except.ok.injEq] at hok
      subst hok
      exact hinv

/-- Reading any position of an all-clear bit set gives `false`. -/
theorem bitGet_replicate_false (n j : Nat) :
    bitGet (List.replicate n false) j = false := by
  unfold bitGet
  rw [List.getD_eq_getElem?_getD, List.getElem?_replicate]
  split <;> rfl

/-- C7: every Target stored in a catalogued Device in any reachable state
has its unpacked count in `[1, 255]`, and `getTarget` recovers
`(start, count)` from `(start << 8) | count` whenever `start < 2 ^ 56` and
`1 ≤ count ≤ 255`. -/
theorem C7_target_packing (k : Kern) (d : DmTool) (h : Reachable k d) :
    (∀ p ∈ d.Devices, ∀ t ∈ p.2.Targets,
      1 ≤ (getTarget t).2 ∧ (getTarget t).2 ≤ 255) ∧
    ∀ s c, s < 2 ^ 56 → 1 ≤ c → c ≤ 255 →
      getTarget (packTarget s c) = (s, c) := by
  constructor
  · have hinv : devicesOk d.Devices := by
      refine Reachable_inv k (fun x => devicesOk x.Devices) ?_ ?_ d h
      · intro p e j d0 hs
        rw [Setup_none_spec k p e j d0 hs]
        intro q hq
        exact absurd hq (List.not_mem_nil q)
      · intro dd op dd' happ hP
        exact applyOp_devicesOk k dd op dd' happ hP
    intro p hp t ht
    exact (hinv p hp).1 t ht
  · intro s c hs hc1 hc2
    exact getTarget_packTarget s c hc2 hs

/-- Witness for C7 at the concrete reachable state `trA2`. -/
theorem C7_target_packing_witness :
    (∀ p ∈ trA2.Devices, ∀ t ∈ p.2.Targets,
      1 ≤ (getTarget t).2 ∧ (getTarget t).2 ≤ 255) ∧
    ∀ s c, s < 2 ^ 56 → 1 ≤ c → c ≤ 255 →
      getTarget (packTarget s c) = (s, c) :=
  C7_target_packing kernOk trA2
    ⟨"/dev/backing", 4096, "/var/cat.json", trA0,
      [DmOp.create "A", DmOp.resize "A" 4096], setup_trA0,
      by simp [runOps, step_trA1, step_trA2]⟩

/-- C10 (amended): in every reachable state the bitmap has exactly
`total_extents` bits, bit 0 is never set, and every set bit `b` satisfies
`1 ≤ b < total_extents` — so the allocator indeed never allocates extent
`total_extents − 1` (whose bit index equals the bitmap length). The
claim's further assertion that every stored Target satisfies
`start + count ≤ total_extents − 1` is false (wrap-around extension). -/
theorem C10_bit_conventions (k : Kern) (d : DmTool) (h : Reachable k d) :
    bitGet d.extentbits 0 = false ∧
    d.extentbits.length = d.extents ∧
    ∀ j, bitGet d.extentbits j = true → 1 ≤ j ∧ j < d.extents := by
  have hinv : BitsInv d := by
    refine Reachable_inv k BitsInv ?_ ?_ d h
    · intro p e j d0 hs
      rw [Setup_none_spec k p e j d0 hs]
      exact ⟨by simp, bitGet_replicate_false _ 0⟩
    · intro dd op dd' happ hP
      exact applyOp_bitsInv k dd op dd' happ hP
  refine ⟨hinv.2, hinv.1, ?_⟩
  intro j hj
  have hlt := bitGet_true_lt _ _ hj
  refine ⟨?_, by rw [← hinv.1]; exact hlt⟩
  rcases Nat.eq_zero_or_pos j with hj0 | hj1
  · rw [hj0] at hj
    rw [hinv.2] at hj
    cases hj
  · exact hj1

/-- Witness for the amended C10 at the concrete reachable state `trB6`. -/
theorem C10_bit_conventions_witness :
    bitGet trB6.extentbits 0 = false ∧
    trB6.extentbits.length = trB6.extents ∧
    ∀ j, bitGet trB6.extentbits j = true → 1 ≤ j ∧ j < trB6.extents :=
  C10_bit_conventions kernOk trB6
    ⟨"/dev/backing", 4096, "/var/cat.json", trA0,
      [DmOp.create "X", DmOp.resize "X" 28672, DmOp.create "B",
        DmOp.resize "B" 8192, DmOp.del "X", DmOp.resize "B" 12288],
      setup_trA0, run_trB⟩

/-- C5 (amended): when the persisted `dev_path` or `extent_size` differs
from the Setup arguments, `Setup` succeeds, skips the replay entirely (the
bitmap stays all-clear, no device-mapper call is made), but the persisted
device list is *kept* in the in-memory catalogue rather than discarded. -/
theorem C5_mismatch_no_replay (k : Kern) (p jp : String) (e : Nat)
    (cat : Catalog) (hsz : k.devsize ≠ 0)
    (hmis : cat.DevPath ≠ p ∨ cat.ExtentSize ≠ e) :
    NewDmTool.Setup k p e jp (some cat) =
      Except.ok
        ⟨p, e, mergeDevs [] cat.Devices, List.replicate (k.devsize / e) false,
          k.devsize / e, jp⟩ := by
  have hcond : ¬(cat.DevPath = p ∧ cat.ExtentSize = e) := by tauto
  simp only [DmTool.Setup, NewDmTool]
  rw [if_neg hsz, if_neg hcond]

/-- Witness for the amended C5 at the concrete mismatching catalogue. -/
theorem C5_mismatch_no_replay_witness :
    NewDmTool.Setup kernOk "/dev/backing" 4096 "/var/cat.json"
        (some mismatchCat) =
      Except.ok
        ⟨"/dev/backing", 4096, mergeDevs [] mismatchCat.Devices,
          List.replicate (kernOk.devsize / 4096) false, kernOk.devsize / 4096,
          "/var/cat.json"⟩ :=
  C5_mismatch_no_replay kernOk "/dev/backing" "/var/cat.json" 4096 mismatchCat
    (by decide) (Or.inl (by decide))

/-- C8: whenever any step of `Flush` fails (temp creation, write, short
write, sync, close, rename), the operation returns an error and the file
at `jsonpath` is unchanged; on success `jsonpath` holds exactly the newly
marshalled catalogue, installed by the final rename of the fully written
temp file. -/
theorem C8_flush_atomicity (env : FlushEnv) (fs : FS) (d : DmTool)
    (htmp : env.tmpName ≠ d.jsonpath) :
    ((d.Flush env fs).2 ≠ none →
      (d.Flush env fs).1 d.jsonpath = fs d.jsonpath) ∧
    ((d.Flush env fs).2 = none →
      (d.Flush env fs).1 d.jsonpath =
        some (FileData.whole (catalogOf d))) := by
  have htmp2 : d.jsonpath ≠ env.tmpName := Ne.symm htmp
  obtain ⟨tn, t1, t2, t3, t4, t5, t6⟩ := env
  simp only [] at htmp2
  cases t1 <;> cases t2 <;> cases t3 <;> cases t4 <;> cases t5 <;> cases t6 <;>
    simp_all [DmTool.Flush, fsUpdate]

/-- The failing-rename environment used as the C8 witness. -/
def envRenameFail : FlushEnv := ⟨"/var/.tmp7", true, true, true, true, true, false⟩

/-- Witness for C8: a rename failure leaves `jsonpath` untouched. -/
theorem C8_flush_atomicity_witness :
    ((trA2.Flush envRenameFail (fun _ => none)).2 ≠ none →
      (trA2.Flush envRenameFail (fun _ => none)).1 trA2.jsonpath =
        (fun _ => (none : Option FileData)) trA2.jsonpath) ∧
    ((trA2.Flush envRenameFail (fun _ => none)).2 = none →
      (trA2.Flush envRenameFail (fun _ => none)).1 trA2.jsonpath =
        some (FileData.whole (catalogOf trA2))) :=
  C8_flush_atomicity envRenameFail (fun _ => none) trA2 (by decide)

/-! ### First-fit behaviour of the allocator on a fresh device -/

/-- Set the `m` bits `q, q + 1, …, q + m - 1`, front to back, exactly as
consecutive `findExtents` iterations do. -/
def setRange (bits : List Bool) (q : Nat) : Nat → List Bool
  | 0 => bits
  | m + 1 => setRange (bsSet bits q) (q + 1) m

/-- `setRange` preserves the length when it stays in range. -/
theorem setRange_length (m : Nat) : ∀ (bits : List Bool) (q : Nat),
    q + m ≤ bits.length → (setRange bits q m).length = bits.length := by
  induction m with
  | zero =>
    intro bits q hle
    rfl
  | succ m ih =>
    intro bits q hle
    have hq : q < bits.length := by omega
    rw [setRange, ih (bsSet bits q) (q + 1)
      (by rw [bsSet_length bits q hq]; omega), bsSet_length bits q hq]

/-- `setRange` leaves bits outside `[q, q + m)` unchanged. -/
theorem setRange_get_outside (m : Nat) : ∀ (bits : List Bool) (q j : Nat),
    q + m ≤ bits.length → j < q ∨ q + m ≤ j →
    bitGet (setRange bits q m) j = bitGet bits j := by
  induction m with
  | zero =>
    intro bits q j hle hj
    rfl
  | succ m ih =>
    intro bits q j hle hj
    have hq : q < bits.length := by omega
    rw [setRange, ih (bsSet bits q) (q + 1)
      j (by rw [bsSet_length bits q hq]; omega) (by omega),
      bsSet_get_ne bits q j hq (by omega)]

/-- `setRange` sets every bit inside `[q, q + m)`. -/
theorem setRange_get_inside (m : Nat) : ∀ (bits : List Bool) (q j : Nat),
    q + m ≤ bits.length → q ≤ j → j < q + m →
    bitGet (setRange bits q m) j = true := by
  induction m with
  | zero =>
    intro bits q j hle hj1 hj2
    omega
  | succ m ih =>
    intro bits q j hle hj1 hj2
    have hq : q < bits.length := by omega
    rw [setRange]
    by_cases hjq : j = q
    · subst hjq
      rw [setRange_get_outside m (bsSet bits j) (j + 1) j
        (by rw [bsSet_length bits j hq]; omega) (by omega)]
      exact bsSet_get_self bits j hq
    · exact ih (bsSet bits q) (q + 1) j
        (by rw [bsSet_length bits q hq]; omega) (by omega) (by omega)

/-- Two adjacent `setRange` blocks fuse. -/
theorem setRange_append (m : Nat) : ∀ (bits : List Bool) (q m' : Nat),
    setRange (setRange bits q m) (q + m) m' = setRange bits q (m + m') := by
  induction m with
  | zero =>
    intro bits q m'
    simp [setRange]
  | succ m ih =>
    intro bits q m'
    simp only [setRange]
    have harith : q + 1 + m = q + (m + 1) := by omega
    rw [← harith, ih (bsSet bits q) (q + 1) m']
    have h2 : m + 1 + m' = m + m' + 1 := by omega
    have h3 : setRange bits q (m + m' + 1) =
        setRange (bsSet bits q) (q + 1) (m + m') := by
      simp only [setRange]
    rw [h2, h3]

/-- `nextClear` finds `a` when everything from the scan start up to `a` is
set and `a` itself is clear. -/
theorem nextClear_of_first (diff : Nat) : ∀ (bits : List Bool) (a i : Nat),
    a - i = diff → i ≤ a → a < bits.length → bitGet bits a = false →
    (∀ m, i ≤ m → m < a → bitGet bits m = true) →
    nextClear bits i = some a := by
  induction diff with
  | zero =>
    intro bits a i hdiff hia ha hcl hset
    have hieq : i = a := by omega
    subst hieq
    exact nextClear_immediate bits i ha hcl
  | succ n ih =>
    intro bits a i hdiff hia ha hcl hset
    have hbit : bitGet bits i = true := hset i (Nat.le_refl i) (by omega)
    rw [nextClear, dif_pos (show i < bits.length by omega),
      if_neg (by simp [hbit])]
    exact ih bits a (i + 1) (by omega) (by omega) ha hcl
      (fun m hm1 hm2 => hset m (by omega) hm2)

/-- A `findExtents` loop entered with a nonempty current run and a
contiguous clear stretch right after the cursor completes the request in
place: it sets exactly the next `ext − cnt` bits. -/
theorem findExtentsGo_run (diff : Nat) : ∀ (bits : List Bool)
    (s ext cnt off nc : Nat), ext - cnt = diff → 1 ≤ cnt → cnt ≤ ext →
    (∀ j, off + 1 ≤ j → j < off + 1 + (ext - cnt) → bitGet bits j = false) →
    off + (ext - cnt) < bits.length →
    findExtentsGo bits s cnt ext off nc =
      ⟨s, ext, nc + (ext - cnt), off + (ext - cnt),
        setRange bits (off + 1) (ext - cnt)⟩ := by
  induction diff with
  | zero =>
    intro bits s ext cnt off nc hdiff h1 h2 hclear hlen
    have hce : cnt = ext := by omega
    subst hce
    rw [findExtentsGo_done bits s cnt cnt off nc (by omega), hdiff]
    rfl
  | succ n ih =>
    intro bits s ext cnt off nc hdiff h1 h2 hclear hlen
    have hcl : bitGet bits (off + 1) = false := hclear (off + 1)
      (Nat.le_refl _) (by omega)
    have hrange : off + 1 < bits.length := by omega
    have hnc := nextClear_immediate bits (off + 1) hrange hcl
    rw [findExtentsGo_cont bits s cnt ext off nc (by omega) hnc (by omega)]
    have hlen2 := bsSet_length bits (off + 1) hrange
    have hrec := ih (bsSet bits (off + 1)) s ext (cnt + 1) (off + 1)
      (nc + 1) (by omega) (by omega) (by omega)
      (fun j hj1 hj2 => by
        rw [bsSet_get_ne bits (off + 1) j hrange (by omega)]
        exact hclear j (by omega) (by omega))
      (by omega)
    rw [hrec]
    have hd2 : ext - cnt = (ext - (cnt + 1)) + 1 := by omega
    rw [hd2, setRange]
    have he1 : nc + 1 + (ext - (cnt + 1)) = nc + (ext - (cnt + 1) + 1) := by
      omega
    have he2 : off + 1 + (ext - (cnt + 1)) = off + (ext - (cnt + 1) + 1) := by
      omega
    rw [he1, he2]

/-- A `findExtents` call on a fresh run (`count = 0`) whose `NextClear`
lands at the head of a clear stretch of at least `ext` bits allocates
exactly `[q, q + ext)` and opens the Target at `q − 1`. -/
theorem findExtentsGo_fresh (bits : List Bool) (s ext off nc q : Nat)
    (hext : 1 ≤ ext) (hq : nextClear bits (off + 1) = some q)
    (hclear : ∀ j, q ≤ j → j < q + ext → bitGet bits j = false)
    (hlen : q + ext ≤ bits.length) :
    findExtentsGo bits s 0 ext off nc =
      ⟨q - 1, ext, nc + ext, q + ext - 1, setRange bits q ext⟩ := by
  have hqr := nextClear_some bits (off + 1) q hq
  rw [findExtentsGo_open bits s ext off nc q hext hq]
  have hlenq := bsSet_length bits q hqr.2.1
  have hrec := findExtentsGo_run (ext - 1) (bsSet bits q) (q - 1) ext 1 q
    (nc + 1) rfl (Nat.le_refl 1) hext
    (fun j hj1 hj2 => by
      rw [bsSet_get_ne bits q j hqr.2.1 (by omega)]
      exact hclear j (by omega) (by omega))
    (by omega)
  rw [hrec]
  simp only [FindRes.mk.injEq]
  refine ⟨trivial, trivial, by omega, by omega, ?_⟩
  have hd : ext = (ext - 1) + 1 := by omega
  conv_rhs => rw [hd]
  simp only [setRange]

/-- The outer resize loop, started on a fresh device (`estart = ecount =
0`) with `NextClear` landing at the head of a clear stretch of at least
`w` bits, sets exactly the bits `[q, q + w)` (splitting Targets at the
255-extent cap) and succeeds. -/
theorem resizeLoop_fresh_run (w : Nat) : ∀ (bits : List Bool)
    (targets : List Nat) (dES dEC off q : Nat),
    1 ≤ w →
    nextClear bits (off + 1) = some q →
    (∀ j, q ≤ j → j < q + w → bitGet bits j = false) →
    q + w ≤ bits.length →
    ∃ tg es ec, resizeLoop bits targets dES dEC w 0 0 off =
      some (setRange bits q w, tg, es, ec) := by
  induction w using Nat.strong_induction_on with
  | _ w ih =>
    intro bits targets dES dEC off q hw hq hclear hlen
    have hminpos : 1 ≤ getMinUint64 w 255 := by
      unfold getMinUint64
      split <;> omega
    have hminle : getMinUint64 w 255 ≤ w := by
      unfold getMinUint64
      split <;> omega
    have hfr := findExtentsGo_fresh bits 0 (getMinUint64 w 255) off 0 q
      hminpos hq (fun j hj1 hj2 => hclear j hj1 (by omega)) (by omega)
    simp only [Nat.zero_add] at hfr
    have hfr2 : findExtents bits 0 0 (getMinUint64 w 255) off =
        ⟨q - 1, getMinUint64 w 255, getMinUint64 w 255,
          q + getMinUint64 w 255 - 1, setRange bits q (getMinUint64 w 255)⟩ :=
      hfr
    have hne : (findExtents bits 0 0 (getMinUint64 w 255) off).ncount ≠ 0 := by
      rw [hfr2]
      simp only []
      omega
    rw [resizeLoop_step bits targets dES dEC w 0 0 off (by omega) hne]
    simp only [hfr2, gt_iff_lt, lt_self_iff_false, if_false]
    by_cases hrest : w - getMinUint64 w 255 = 0
    · have hextw : getMinUint64 w 255 = w := by omega
      rw [hextw]
      have hww : w - w = 0 := by omega
      rw [hww, resizeLoop_zero]
      exact ⟨targets ++ [packTarget (q - 1) w], q - 1, w, rfl⟩
    · have hlen2 : (setRange bits q (getMinUint64 w 255)).length =
          bits.length :=
        setRange_length _ bits q (by omega)
      have hbit2 : bitGet (setRange bits q (getMinUint64 w 255))
          (q + getMinUint64 w 255) = false := by
        rw [setRange_get_outside _ bits q _ (by omega) (by omega)]
        exact hclear _ (by omega) (by omega)
      have hq2 : nextClear (setRange bits q (getMinUint64 w 255))
          (q + getMinUint64 w 255 - 1 + 1) = some (q + getMinUint64 w 255) := by
        have harith : q + getMinUint64 w 255 - 1 + 1 =
            q + getMinUint64 w 255 := by omega
        rw [harith]
        exact nextClear_immediate _ _ (by omega) hbit2
      have hclear2 : ∀ j, q + getMinUint64 w 255 ≤ j →
          j < q + getMinUint64 w 255 + (w - getMinUint64 w 255) →
          bitGet (setRange bits q (getMinUint64 w 255)) j = false := by
        intro j hj1 hj2
        rw [setRange_get_outside _ bits q j (by omega) (by omega)]
        exact hclear j (by omega) (by omega)
      have hrec := ih (w - getMinUint64 w 255) (by omega)
        (setRange bits q (getMinUint64 w 255))
        (targets ++ [packTarget (q - 1) (getMinUint64 w 255)])
        (q - 1) (getMinUint64 w 255) (q + getMinUint64 w 255 - 1)
        (q + getMinUint64 w 255) (by omega) hq2 hclear2 (by omega)
      obtain ⟨tg, es, ec, hres⟩ := hrec
      rw [setRange_append] at hres
      have harith2 : getMinUint64 w 255 + (w - getMinUint64 w 255) = w := by
        omega
      rw [harith2] at hres
      exact ⟨tg, es, ec, hres⟩

/-- C9 (amended): on a device that has no Targets yet (allocation cursor
at 0), given a bitmap whose clear bits among the allocator-visible indices
`≥ 1` form exactly the two holes `[a, b)` and `[c, d)` with
`1 ≤ a < b < c < d ≤ n`, a grow request needing `w ≤ b − a` extents
succeeds and allocates all of its new extents inside `[a, b)`: bits
outside `[a, b)` are unchanged and bits `[a, a + w)` are set. For a device
that already has Targets, the allocator instead resumes from the device's
cursor (see the counterexample). -/
theorem C9_first_fit_fresh (k : Kern) (d : DmTool) (name : String)
    (size : Nat) (device : DmDevice) (n a b c dd w : Nat)
    (hfd : findDev d.Devices name = some device)
    (hdev : device.Targets = [] ∧ device.Extents = 0 ∧
      device.ExtentStart = 0 ∧ device.ExtentCount = 0)
    (hlen : d.extentbits.length = n)
    (hw : getMaxUint64 (size / d.ExtentSize) 1 = w)
    (hholes : ∀ i, i < n → 1 ≤ i →
      (bitGet d.extentbits i = false ↔ (a ≤ i ∧ i < b) ∨ (c ≤ i ∧ i < dd)))
    (ha : 1 ≤ a) (hab : a < b) (hbc : b < c) (hcd : c < dd) (hdn : dd ≤ n)
    (hfits : w ≤ b - a) :
    ∃ d', d.ResizeDevice k name size = Except.ok d' ∧
      (∀ i, i < a ∨ b ≤ i → bitGet d'.extentbits i = bitGet d.extentbits i) ∧
      (∀ i, a ≤ i → i < a + w → bitGet d'.extentbits i = true) := by
  have hw1 : 1 ≤ w := by
    rw [← hw]
    unfold getMaxUint64
    split <;> omega
  have haltn : a < n := by omega
  have hbits_a : bitGet d.extentbits a = false :=
    (hholes a haltn ha).mpr (Or.inl ⟨Nat.le_refl a, hab⟩)
  have hset_below : ∀ m, 1 ≤ m → m < a → bitGet d.extentbits m = true := by
    intro m hm1 hm2
    cases hbm : bitGet d.extentbits m with
    | false =>
      have := (hholes m (by omega) hm1).mp hbm
      omega
    | true => rfl
  have hnc : nextClear d.extentbits (0 + 1) = some a := by
    exact nextClear_of_first (a - 1) d.extentbits a 1 (by omega) ha
      (by omega) hbits_a (fun m hm1 hm2 => hset_below m hm1 hm2)
  have hclear : ∀ j, a ≤ j → j < a + w → bitGet d.extentbits j = false := by
    intro j hj1 hj2
    exact (hholes j (by omega) (by omega)).mpr (Or.inl ⟨hj1, by omega⟩)
  have hlenw : a + w ≤ d.extentbits.length := by omega
  obtain ⟨tg, es, ec, hres⟩ := resizeLoop_fresh_run w d.extentbits []
    0 0 0 a hw1 hnc hclear hlenw
  have hout := setRange_get_outside w d.extentbits a
  have hin := setRange_get_inside w d.extentbits a
  simp only [DmTool.ResizeDevice, hfd, hw, hdev.1, hdev.2.1, hdev.2.2.1,
    hdev.2.2.2, Nat.zero_add, Nat.sub_zero, Nat.add_zero]
  rw [if_neg (show ¬ w = 0 by omega), if_pos (show w > 0 by omega)]
  rw [hres]
  simp only [DmTool.reloadDevice, resumeDevice]
  refine ⟨_, rfl, ?_, ?_⟩
  · intro i hi
    simp only []
    exact hout i hlenw (by omega)
  · intro i hi1 hi2
    simp only []
    exact hin i hlenw hi1 (by omega)

/-- The fresh-device first-fit state used as the C9 witness: device "E"
has no Targets, device "A" owns bits 3–4, so the holes among bits ≥ 1 are
`[1, 3)` and `[5, 8)`. -/
def trE0 : DmTool :=
  ⟨"/dev/backing", 4096,
    [("A", ⟨[514], 2, "", "", false, 2, 2⟩), ("E", emptyDmDevice)],
    [false, false, false, true, true, false, false, false], 8, "/var/cat.json"⟩

/-- Witness for the amended C9: growing the fresh device "E" by two
extents (= b − a) stays inside the first hole `[1, 3)`. -/
theorem C9_first_fit_fresh_witness :
    ∃ d', trE0.ResizeDevice kernOk "E" 8192 = Except.ok d' ∧
      (∀ i, i < 1 ∨ 3 ≤ i → bitGet d'.extentbits i = bitGet trE0.extentbits i) ∧
      (∀ i, 1 ≤ i → i < 1 + 2 → bitGet d'.extentbits i = true) :=
  C9_first_fit_fresh kernOk trE0 "E" 8192 emptyDmDevice 8 1 3 5 8 2
    (by decide) (by decide) (by decide) (by decide) (by decide)
    (by decide) (by decide) (by decide) (by decide) (by decide) (by decide)

end Overlit
